import Mathlib

/-!
Verification development for the sprockets.mixins.mediatype content
negotiation and transcoding library.

The definitions below are a shallow embedding of the Python sources
(content.py, handlers.py, transcoders.py).  External collaborators that
the library delegates to (the ietfparse header parser, the umsgpack wire
packer, the urllib percent-decoding primitive and the json module) are
modelled from the specification of their documented behaviour; every such
definition carries a doc comment saying so.  Machine strings are Lean
strings, byte strings are lists of natural numbers below 256, and Python
exceptions are represented by Option or by explicit outcome types.
-/

set_option autoImplicit false

namespace MediaType

/-! ### Byte and character helpers -/

/-- Uppercase hexadecimal digit for a value below 16. -/
def hexDigitUpper (n : Nat) : Char :=
  if n < 10 then Char.ofNat (48 + n) else Char.ofNat (55 + n)

/-- Render a byte as a two digit uppercase hexadecimal escape, percent sign
included, mirroring the Python format string percent-02X. -/
def pctHex (b : Nat) : String :=
  String.mk ['%', hexDigitUpper (b / 16), hexDigitUpper (b % 16)]

/-- Value of a hexadecimal digit character, if it is one.  Both cases are
accepted, as in the Python int(s, 16) primitive. -/
def hexVal (c : Char) : Option Nat :=
  if 48 ≤ c.toNat ∧ c.toNat ≤ 57 then some (c.toNat - 48)
  else if 65 ≤ c.toNat ∧ c.toNat ≤ 70 then some (c.toNat - 55)
  else if 97 ≤ c.toNat ∧ c.toNat ≤ 102 then some (c.toNat - 87)
  else none

/-- Code points of the characters of a string; for a pure ASCII string this
is also its byte encoding under every usual charset. -/
def asciiCodes (s : String) : List Nat :=
  s.data.map Char.toNat

/-- Decimal digits of a positive value, most significant first; the fuel
dominates the number of digits. -/
def natToCharsAux : Nat → Nat → List Char
  | 0, _ => []
  | fuel+1, n =>
    if n = 0 then []
    else natToCharsAux fuel (n / 10) ++ [Char.ofNat (48 + n % 10)]

/-- Decimal representation of a natural number. -/
def natToChars (n : Nat) : List Char :=
  if n = 0 then ['0'] else natToCharsAux n n

/-- Modelled from the spec: a Python float is embedded as its IEEE-754
bit pattern, and str and repr of a finite float produce the shortest
decimal literal with a fractional part that the float constructor maps
back to the very same value.  The model keeps exactly that documented
contract - an injective decimal-literal image of the bit pattern whose
parse below recovers it - while the concrete digit sequence the external
runtime prints is outside the model. -/
def floatRepr (bits : Nat) : List Char :=
  natToChars bits ++ ['.', '0']

/-- A base64 alphabet character for a six bit value. -/
def b64Char (n : Nat) : Char :=
  if n < 26 then Char.ofNat (65 + n)
  else if n < 52 then Char.ofNat (97 + (n - 26))
  else if n < 62 then Char.ofNat (48 + (n - 52))
  else if n = 62 then '+'
  else '/'

/-- Modelled from the spec: the standard base64 encoding of a byte string
as done by base64.b64encode, three bytes to four alphabet characters with
equals sign padding. -/
def base64Chars : List Nat → List Char
  | [] => []
  | [a] => [b64Char (a / 4), b64Char (a % 4 * 16), '=', '=']
  | [a, b] =>
    [b64Char (a / 4), b64Char (a % 4 * 16 + b / 16), b64Char (b % 16 * 4),
     '=']
  | a :: b :: c :: rest =>
    [b64Char (a / 4), b64Char (a % 4 * 16 + b / 16),
     b64Char (b % 16 * 4 + c / 64), b64Char (c % 64)] ++ base64Chars rest

/-- The base64 text of a byte string. -/
def base64Str (bs : List Nat) : String :=
  String.mk (base64Chars bs)

/-- UTF-8 encoding of a single character, by code point range. -/
def utf8Char (c : Char) : List Nat :=
  let n := c.toNat
  if n < 0x80 then [n]
  else if n < 0x800 then [0xC0 + n / 64, 0x80 + n % 64]
  else if n < 0x10000 then [0xE0 + n / 4096, 0x80 + n / 64 % 64, 0x80 + n % 64]
  else [0xF0 + n / 262144, 0x80 + n / 4096 % 64, 0x80 + n / 64 % 64, 0x80 + n % 64]

/-- UTF-8 encoding of a string as a byte list; models the Python
str.encode with the utf-8 codec. -/
def utf8Encode (s : String) : List Nat :=
  s.data.flatMap utf8Char

/-- A character is plain ASCII when its code point is below 128. -/
def isAsciiChar (c : Char) : Prop := c.toNat < 128

/-- All characters of the string are ASCII. -/
def isAsciiString (s : String) : Prop := ∀ c ∈ s.data, c.toNat < 128

instance (c : Char) : Decidable (isAsciiChar c) := by
  unfold isAsciiChar; infer_instance

instance (s : String) : Decidable (isAsciiString s) := by
  unfold isAsciiString; infer_instance

/-- Models the Python bytes-to-text decode with the ascii codec: every byte
must be below 128, otherwise a UnicodeDecodeError is raised (none). -/
def bytesToAsciiStr (bs : List Nat) : Option String :=
  if bs.all (fun b => b < 128) then some (String.mk (bs.map Char.ofNat))
  else none

/-- Models the Python text-to-bytes encode with the ascii codec. -/
def asciiStrToBytes (s : String) : Option (List Nat) :=
  if s.data.all (fun c => c.toNat < 128) then some (asciiCodes s)
  else none

/-! ### Content type specifications

Modelled from the spec: the header grammar parser is an external
collaborator (the ietfparse library).  Per the spec, a ContentTypeSpec is
the canonical parsed form of a MIME type string, namely primary type,
subtype, an optional plus suffix and the parameters, with parameter names
lower-cased and sorted in the canonical string form used as registry key.
-/

structure ContentType where
  contentType : String
  contentSubtype : String
  contentSuffix : Option String
  parameters : List (String × String)
deriving DecidableEq, Repr

/-- Split a character list on a separator character, mirroring the Python
str.split with a one character separator: the empty string yields one
empty group, and adjacent separators yield empty groups. -/
def splitOnChar (sep : Char) : List Char → List (List Char)
  | [] => [[]]
  | c :: rest =>
    let r := splitOnChar sep rest
    if c = sep then [] :: r
    else
      match r with
      | [] => [[c]]
      | g :: gs => (c :: g) :: gs

/-- Join character groups with a separator character. -/
def intercalateChar (sep : Char) : List (List Char) → List Char
  | [] => []
  | [g] => g
  | g :: gs => g ++ sep :: intercalateChar sep gs

/-- Strip leading and trailing whitespace, as the Python str.strip. -/
def trimChars (cs : List Char) : List Char :=
  ((cs.dropWhile Char.isWhitespace).reverse.dropWhile Char.isWhitespace).reverse

/-- Lower-case every character. -/
def lowerChars (cs : List Char) : List Char :=
  cs.map Char.toLower

/-- Modelled from the spec: a parameter segment is name, first equals sign,
value; the name is lower-cased.  A segment without an equals sign fails to
parse, which surfaces as the parse failure of the whole header. -/
def parseParamChars (segment : List Char) : Option (String × String) :=
  match splitOnChar '=' segment with
  | [] => none
  | [_] => none
  | k :: rest =>
    some (String.mk (lowerChars (trimChars k)),
          String.mk (trimChars (intercalateChar '=' rest)))

/-- Modelled from the spec: the subtype may carry a structured syntax
suffix after a plus sign, for example vendor+json. -/
def splitSuffixChars (s : List Char) : List Char × Option (List Char) :=
  match splitOnChar '+' s with
  | [] => (s, none)
  | [t] => (t, none)
  | t :: rest => (t, some (intercalateChar '+' rest))

/-- Modelled from the spec: parsing a MIME content type string into its
canonical parsed form.  The string is a type and subtype separated by a
slash, an optional plus suffix on the subtype, then semicolon separated
name=value parameters.  A value without exactly one slash between two
nonempty tokens fails to parse, which the library code observes as a
ValueError. -/
def parseContentType (value : String) : Option ContentType :=
  match splitOnChar ';' value.data with
  | [] => none
  | typePart :: paramParts =>
    match splitOnChar '/' (trimChars typePart) with
    | [t, st] =>
      let t := lowerChars (trimChars t)
      let st := lowerChars (trimChars st)
      if t.isEmpty || st.isEmpty then none
      else
        let (sub, sfx) := splitSuffixChars st
        let segs := (paramParts.map trimChars).filter (fun p => !p.isEmpty)
        match segs.mapM parseParamChars with
        | none => none
        | some ps => some ⟨String.mk t, String.mk sub, sfx.map String.mk, ps⟩
    | _ => none

/-- Structural lexicographic comparison of character lists by code point.
The core string comparison is not kernel reducible, so the canonical
parameter order is built on this equivalent structural one. -/
def charListLt : List Char → List Char → Bool
  | [], [] => false
  | [], _ :: _ => true
  | _ :: _, [] => false
  | a :: as, b :: bs =>
    if a.toNat < b.toNat then true
    else if b.toNat < a.toNat then false
    else charListLt as bs

/-- Strict lexicographic order on strings. -/
def strLt (a b : String) : Prop := charListLt a.data b.data = true

/-- Lexicographic order on strings, as the negation of the reversed
strict order. -/
def strLe (a b : String) : Prop := charListLt b.data a.data = false

instance : DecidableRel strLt := fun a b => by unfold strLt; infer_instance

instance : DecidableRel strLe := fun a b => by unfold strLe; infer_instance

theorem charInj {a b : Char} (h : a.toNat = b.toNat) : a = b := by
  exact_mod_cast Char.ofNat_toNat a ▸ Char.ofNat_toNat b ▸ congrArg Char.ofNat h

theorem stringDataInj {a b : String} (h : a.data = b.data) : a = b := by
  cases a; cases b; exact congrArg String.mk h

theorem charListLt_irrefl : ∀ l, charListLt l l = false := by
  intro l
  induction l with
  | nil => rfl
  | cons a as ih => simp [charListLt, ih]

theorem charListLt_trans : ∀ {a b c : List Char}, charListLt a b = true →
    charListLt b c = true → charListLt a c = true := by
  intro a
  induction a with
  | nil =>
    intro b c hab hbc
    cases b with
    | nil => exact absurd hab (by simp [charListLt])
    | cons y ys =>
      cases c with
      | nil => exact absurd hbc (by simp [charListLt])
      | cons z zs => simp [charListLt]
  | cons x xs ih =>
    intro b c hab hbc
    cases b with
    | nil => exact absurd hab (by simp [charListLt])
    | cons y ys =>
      cases c with
      | nil => exact absurd hbc (by simp [charListLt])
      | cons z zs =>
        simp only [charListLt] at hab hbc ⊢
        by_cases hxy : x.toNat < y.toNat
        · by_cases hyz : y.toNat < z.toNat
          · simp [Nat.lt_trans hxy hyz]
          · simp only [hyz, if_false] at hbc
            by_cases hzy : z.toNat < y.toNat
            · simp [hzy] at hbc
            · have hyez : y.toNat = z.toNat := Nat.le_antisymm
                (Nat.le_of_not_lt hzy) (Nat.le_of_not_lt hyz)
              simp [hyez ▸ hxy]
        · simp only [hxy, if_false] at hab
          by_cases hyx : y.toNat < x.toNat
          · simp [hyx] at hab
          · have hxey : x.toNat = y.toNat := Nat.le_antisymm
              (Nat.le_of_not_lt hyx) (Nat.le_of_not_lt hxy)
            simp only [hyx, if_false] at hab
            by_cases hyz : y.toNat < z.toNat
            · simp [hxey ▸ hyz]
            · simp only [hyz, if_false] at hbc
              by_cases hzy : z.toNat < y.toNat
              · simp [hzy] at hbc
              · simp only [hzy, if_false] at hbc
                have hxz : ¬ x.toNat < z.toNat := hxey ▸ hyz
                have hzx : ¬ z.toNat < x.toNat := hxey ▸ hzy
                simp [hxz, hzx, ih hab hbc]

theorem charListLt_connected : ∀ {a b : List Char}, charListLt a b = false →
    charListLt b a = false → a = b := by
  intro a
  induction a with
  | nil =>
    intro b hab _
    cases b with
    | nil => rfl
    | cons y ys => exact absurd hab (by simp [charListLt])
  | cons x xs ih =>
    intro b hab hba
    cases b with
    | nil => exact absurd hba (by simp [charListLt])
    | cons y ys =>
      simp only [charListLt] at hab hba
      by_cases hxy : x.toNat < y.toNat
      · simp [hxy] at hab
      · by_cases hyx : y.toNat < x.toNat
        · simp [hyx] at hba
        · have hxey : x = y := charInj (Nat.le_antisymm
            (Nat.le_of_not_lt hyx) (Nat.le_of_not_lt hxy))
          simp only [hxy, hyx, if_false] at hab hba
          exact hxey ▸ congrArg (x :: ·) (ih hab hba)

theorem boolFalse {x : Bool} (h : ¬ x = true) : x = false := by
  cases x
  · rfl
  · exact absurd rfl h

theorem charListLt_asymm {a b : List Char} (h : charListLt a b = true) :
    charListLt b a = false := by
  by_cases hba : charListLt b a = true
  · exact absurd (charListLt_trans h hba) (by simp [charListLt_irrefl])
  · exact boolFalse hba

/-- Ordering of parameters used for the canonical form: by name, then by
value; a linear order on pairs of strings. -/
def paramLe (p q : String × String) : Prop :=
  strLt p.1 q.1 ∨ (p.1 = q.1 ∧ strLe p.2 q.2)

instance : DecidableRel paramLe := fun p q => by
  unfold paramLe; infer_instance

theorem strLe_trans {a b c : String} (hab : strLe a b) (hbc : strLe b c) :
    strLe a c := by
  unfold strLe at hab hbc ⊢
  by_cases hca : charListLt c.data a.data = true
  · exfalso
    by_cases hab2 : charListLt a.data b.data = true
    · exact absurd (charListLt_trans hca hab2) (by simp [hbc])
    · have e : a.data = b.data := charListLt_connected (boolFalse hab2) hab
      exact absurd (e ▸ hca) (by simp [hbc])
  · exact boolFalse hca

instance : IsTrans (String × String) paramLe := by
  constructor
  intro a b c hab hbc
  unfold paramLe strLt strLe at hab hbc ⊢
  rcases hab with h1 | ⟨e1, l1⟩
  · rcases hbc with h2 | ⟨e2, l2⟩
    · exact Or.inl (charListLt_trans h1 h2)
    · exact Or.inl (e2 ▸ h1)
  · rcases hbc with h2 | ⟨e2, l2⟩
    · exact Or.inl (e1 ▸ h2)
    · exact Or.inr ⟨e1.trans e2, strLe_trans l1 l2⟩

instance : IsTotal (String × String) paramLe := by
  constructor
  intro a b
  unfold paramLe strLt strLe
  by_cases h : charListLt a.1.data b.1.data = true
  · exact Or.inl (Or.inl h)
  · by_cases h2 : charListLt b.1.data a.1.data = true
    · exact Or.inr (Or.inl h2)
    · have e : a.1 = b.1 :=
        stringDataInj (charListLt_connected (boolFalse h) (boolFalse h2))
      by_cases h3 : charListLt b.2.data a.2.data = true
      · exact Or.inr (Or.inr ⟨e.symm, charListLt_asymm h3⟩)
      · exact Or.inl (Or.inr ⟨e, boolFalse h3⟩)

instance : IsAntisymm (String × String) paramLe := by
  constructor
  intro a b hab hba
  unfold paramLe strLt strLe at hab hba
  rcases hab with h1 | ⟨e1, l1⟩
  · rcases hba with h2 | ⟨e2, l2⟩
    · exact absurd h2 (by simp [charListLt_asymm h1])
    · exact absurd h1 (by rw [e2]; simp [charListLt_irrefl])
  · rcases hba with h2 | ⟨e2, l2⟩
    · exact absurd h2 (by rw [e1]; simp [charListLt_irrefl])
    · exact Prod.ext e1 (stringDataInj (charListLt_connected l2 l1))

/-- Canonical parameter order: insertion sort by name then value. -/
def sortParams (ps : List (String × String)) : List (String × String)  :=
  List.insertionSort paramLe ps

/-- Render the sorted parameters, each preceded by a semicolon and a
space, as in the canonical string form of the external parser. -/
def renderParams (ps : List (String × String)) : String :=
  String.join ((sortParams ps).map (fun kv => "; " ++ kv.1 ++ "=" ++ kv.2))

/-- The slash joined type and subtype, with the plus suffix appended when
present.  This is exactly the string built by ContentMixin from a parsed
header before the registry lookup. -/
def typeSubtypeKey (ct : ContentType) : String :=
  ct.contentType ++ "/" ++ ct.contentSubtype ++
    (match ct.contentSuffix with
     | none => ""
     | some s => "+" ++ s)

/-- Canonical string form of a parsed content type: used by
ContentSettings as the registry key. -/
def canonicalStr (ct : ContentType) : String :=
  typeSubtypeKey ct ++ renderParams ct.parameters

/-! ### ContentSettings: the codec registry (content.py) -/

/-- Embeds ContentSettings from content.py: an insertion ordered list of
available parsed types, the mapping from canonical content type string to
handler (a Python dict, embedded as an insertion ordered association
list), and the default content type. -/
structure ContentSettings (α : Type) where
  handlers : List (String × α)
  availableTypes : List ContentType
  defaultContentType : Option String

/-- A fresh ContentSettings as built by the ContentSettings initializer. -/
def emptySettings (α : Type) : ContentSettings α :=
  { handlers := [], availableTypes := [], defaultContentType := none }

/-- Python dict lookup on the association list embedding. -/
def lookupHandler {α : Type} (hs : List (String × α)) (key : String) : Option α :=
  (hs.find? (fun kv => kv.1 == key)).map (fun kv => kv.2)

/-- Embeds ContentSettings.setitem: parse the content type (a ValueError
propagates, embedded as none), take the canonical string; if a handler for
that key already exists log a warning and return leaving the state
untouched, otherwise append the parsed type to the available list and
store the handler. -/
def setItem {α : Type} (s : ContentSettings α) (contentTypeStr : String)
    (h : α) : Option (ContentSettings α) :=
  (parseContentType contentTypeStr).map fun parsed =>
    let key := canonicalStr parsed
    if (lookupHandler s.handlers key).isSome then s
    else { s with availableTypes := s.availableTypes ++ [parsed],
                  handlers := s.handlers ++ [(key, h)] }

/-- Embeds ContentSettings.getitem: parse the requested content type and
look the canonical string up in the handlers dict.  A parse failure or a
missing key both yield none (ValueError and KeyError respectively in the
Python code; the callers embedded below only reach the KeyError case with
keys that are known to parse). -/
def getItem {α : Type} (s : ContentSettings α) (contentTypeStr : String) :
    Option α :=
  (parseContentType contentTypeStr).bind fun parsed =>
    lookupHandler s.handlers (canonicalStr parsed)

/-! ### The dynamic value model -/

/-- Embeds the dynamic Python values the transcoders accept and produce:
null, booleans, integers, floats (carried as inert IEEE-754 bit patterns,
since their textual repr belongs to external primitives), strings, byte
strings, UUID values (carried as their canonical string form), lists and
dicts. -/
inductive PyObj where
  | pnone
  | pbool (b : Bool)
  | pint (n : Int)
  | pfloat (bits : Nat)
  | pstr (s : String)
  | pbytes (bs : List Nat)
  | puuid (canonicalForm : String)
  | plist (xs : List PyObj)
  | pdict (entries : List (PyObj × PyObj))

/-! ### The form-urlencoded transcoder (transcoders.py) -/

/-- Embeds FormUrlEncodingOptions.  The literal mapping dict from None,
True and False to replacement strings is embedded as three optional
fields; a none field means the entry was removed from the mapping. -/
structure FormUrlEncodingOptions where
  spaceAsPlus : Bool := false
  encodeSequences : Bool := false
  literalNone : Option String := some ""
  literalTrue : Option String := some "true"
  literalFalse : Option String := some "false"

/-- The options as initialized by default. -/
def defaultFormOptions : FormUrlEncodingOptions := {}

/-- The unreserved bytes whose table entries are overridden with identity:
ASCII letters, digits, asterisk, hyphen, underscore, dot. -/
def isUnreservedByte (b : Nat) : Bool :=
  (65 ≤ b && b ≤ 90) || (97 ≤ b && b ≤ 122) || (48 ≤ b && b ≤ 57) ||
    (b == 42) || (b == 45) || (b == 95) || (b == 46)

/-- Embeds the FORM URLENCODING table of transcoders.py: a dict built from
percent escapes for every byte produced by range(0, 255) - the upper bound
is exclusive, so byte 255 has no entry - then overridden with identity
entries for the unreserved bytes.  A lookup of a missing key raises
KeyError, embedded as none. -/
def formUrlEncoding (b : Nat) : Option String :=
  if isUnreservedByte b then some (String.mk [Char.ofNat b])
  else if b < 255 then some (pctHex b)
  else none

/-- Embeds the plus variant of the table: a copy with the space entry
replaced by the plus sign. -/
def formUrlEncodingPlus (b : Nat) : Option String :=
  if b == 32 then some "+" else formUrlEncoding b

/-- Table selection as done at the top of to_bytes. -/
def chrMap (spaceAsPlus : Bool) (b : Nat) : Option String :=
  if spaceAsPlus then formUrlEncodingPlus b else formUrlEncoding b

/-- Map every byte through the encoding table and join the results; a
missing table entry propagates as none (KeyError). -/
def encodeTableBytes (table : Nat → Option String) (bs : List Nat) :
    Option String :=
  (bs.mapM table).map String.join

/-- Embeds the underscore encode method of FormUrlEncodedTranscoder,
with the branches in source order: strings pass through; integers, floats
and UUID values become their decimal, repr or canonical strings (the
float repr is the spec-modelled floatRepr); the literal mapping handles
None and the booleans; byte strings are mapped through the table
directly; everything else is modelled from the spec as an encode error
(none), which also covers a literal removed from the mapping.  A string
result is UTF-8 encoded and then mapped through the table. -/
def formEncodeDatum (opts : FormUrlEncodingOptions) (datum : PyObj) :
    Option String :=
  let table := chrMap opts.spaceAsPlus
  match datum with
  | .pstr s => encodeTableBytes table (utf8Encode s)
  | .pint n => encodeTableBytes table (utf8Encode (toString n))
  | .pfloat bits =>
    encodeTableBytes table (utf8Encode (String.mk (floatRepr bits)))
  | .puuid u => encodeTableBytes table (utf8Encode u)
  | .pnone =>
    opts.literalNone.bind fun lit => encodeTableBytes table (utf8Encode lit)
  | .pbool true =>
    opts.literalTrue.bind fun lit => encodeTableBytes table (utf8Encode lit)
  | .pbool false =>
    opts.literalFalse.bind fun lit => encodeTableBytes table (utf8Encode lit)
  | .pbytes bs => encodeTableBytes table bs
  | .plist _ => none
  | .pdict _ => none

/-- Embeds the underscore convert to tuple sequence method: a dict yields
its entries, a list must consist of two element lists; with the encode
sequences option every iterable value is expanded into repeated pairs,
where iterating a dict yields its keys.  A value of any other shape raises
TypeError, embedded as none. -/
def convertToTupleSequence (opts : FormUrlEncodingOptions) (value : PyObj) :
    Option (List (PyObj × PyObj)) :=
  let base : Option (List (PyObj × PyObj)) :=
    match value with
    | .pdict entries => some entries
    | .plist xs =>
      xs.mapM fun x =>
        match x with
        | .plist [a, b] => some (a, b)
        | _ => none
    | _ => none
  base.map fun tuples =>
    if opts.encodeSequences then
      tuples.flatMap fun ab =>
        match ab.2 with
        | .plist ys => ys.map fun y => (ab.1, y)
        | .pdict kvs => kvs.map fun kv => (ab.1, kv.1)
        | b => [(ab.1, b)]
    else tuples

/-- One name value pair of the to_bytes loop: the equals sign and the
value are omitted when the value is None, exactly as the source only
appends them when the value is not None. -/
def formEncodePair (opts : FormUrlEncodingOptions) (pair : PyObj × PyObj) :
    Option String :=
  match pair.2 with
  | .pnone => formEncodeDatum opts pair.1
  | v =>
    (formEncodeDatum opts pair.1).bind fun n =>
      (formEncodeDatum opts v).map fun w => n ++ "=" ++ w

/-- Structural join of strings with a separator. -/
def intercalateStr (sep : String) : List String → String
  | [] => ""
  | [x] => x
  | x :: xs => x ++ sep ++ intercalateStr sep xs

/-- The content type attribute of FormUrlEncodedTranscoder, spelled in the
source without the hyphen between form and urlencoded. -/
def formContentType : String := "application/x-www-formurlencoded"

/-- Embeds FormUrlEncodedTranscoder.to_bytes: convert the value to a
sequence of name value tuples, falling back to a single pair of the value
and None when the conversion raises; encode each pair joined by the
ampersand; encode the result as ASCII and return it with the content
type. -/
def formToBytes (opts : FormUrlEncodingOptions) (instData : PyObj) :
    Option (String × List Nat) :=
  let tuples :=
    match convertToTupleSequence opts instData with
    | some t => t
    | none => [(instData, PyObj.pnone)]
  (tuples.mapM (formEncodePair opts)).bind fun parts =>
    (asciiStrToBytes (intercalateStr "&" parts)).map fun bs =>
      (formContentType, bs)

/-- Modelled from the spec: the percent-decoding primitive of the standard
library is external and decodes best-effort - a percent sign followed by
two hex digits contributes that byte, anything else contributes the UTF-8
bytes of the character itself. -/
def unquoteBytes : List Char → List Nat
  | [] => []
  | '%' :: a :: b :: rest =>
    match hexVal a, hexVal b with
    | some x, some y => (16 * x + y) :: unquoteBytes rest
    | _, _ => utf8Char '%' ++ unquoteBytes (a :: b :: rest)
  | c :: rest => utf8Char c ++ unquoteBytes rest

/-- The UTF-8 replacement character produced for malformed sequences. -/
def replacementChar : Char := Char.ofNat 0xFFFD

/-- Modelled from the spec: UTF-8 decoding with the replacement behaviour
of the external percent-decoding primitive; valid sequences decode to
their code points and a malformed byte decodes to the replacement
character.  The loop carries fuel for structural recursion; every step
consumes at least one byte, so the byte count is enough fuel. -/
def utf8DecodeLoop : Nat → List Nat → List Char
  | 0, _ => []
  | _, [] => []
  | fuel + 1, b :: rest =>
    if b < 0x80 then Char.ofNat b :: utf8DecodeLoop fuel rest
    else if 0xC2 ≤ b && b ≤ 0xDF then
      match rest with
      | c :: rest2 =>
        if 0x80 ≤ c && c ≤ 0xBF then
          Char.ofNat ((b - 0xC0) * 64 + (c - 0x80)) :: utf8DecodeLoop fuel rest2
        else replacementChar :: utf8DecodeLoop fuel (c :: rest2)
      | [] => [replacementChar]
    else if 0xE0 ≤ b && b ≤ 0xEF then
      match rest with
      | c :: d :: rest2 =>
        if (0x80 ≤ c && c ≤ 0xBF) && (0x80 ≤ d && d ≤ 0xBF) &&
            (let n := (b - 0xE0) * 4096 + (c - 0x80) * 64 + (d - 0x80)
             decide (0x800 ≤ n) && !(decide (0xD800 ≤ n) && decide (n ≤ 0xDFFF))) then
          Char.ofNat ((b - 0xE0) * 4096 + (c - 0x80) * 64 + (d - 0x80)) ::
            utf8DecodeLoop fuel rest2
        else replacementChar :: utf8DecodeLoop fuel (c :: d :: rest2)
      | _ => [replacementChar]
    else if 0xF0 ≤ b && b ≤ 0xF4 then
      match rest with
      | c :: d :: e :: rest2 =>
        if (0x80 ≤ c && c ≤ 0xBF) && (0x80 ≤ d && d ≤ 0xBF) &&
            (0x80 ≤ e && e ≤ 0xBF) &&
            (let n := (b - 0xF0) * 262144 + (c - 0x80) * 4096 +
              (d - 0x80) * 64 + (e - 0x80)
             decide (0x10000 ≤ n) && decide (n ≤ 0x10FFFF)) then
          Char.ofNat ((b - 0xF0) * 262144 + (c - 0x80) * 4096 +
              (d - 0x80) * 64 + (e - 0x80)) :: utf8DecodeLoop fuel rest2
        else replacementChar :: utf8DecodeLoop fuel (c :: d :: e :: rest2)
      | _ => [replacementChar]
    else replacementChar :: utf8DecodeLoop fuel rest

/-- The UTF-8 replacement decode of a byte list. -/
def utf8DecodeReplace (bs : List Nat) : List Char :=
  utf8DecodeLoop bs.length bs

/-- Modelled from the spec: the percent-decoding primitive applied to one
segment; with the space-as-plus option the plus variant is used, which
first turns plus signs into spaces. -/
def dequoteStr (spaceAsPlus : Bool) (cs : List Char) : String :=
  let cs := if spaceAsPlus then cs.map (fun c => if c = '+' then ' ' else c)
            else cs
  String.mk (utf8DecodeReplace (unquoteBytes cs))

/-- The partition of a segment at its first equals sign, as the Python
str.partition: the name, whether an equals sign was present, the value. -/
def partitionEqChars (part : List Char) : List Char × Bool × List Char :=
  match splitOnChar '=' part with
  | [] => (part, false, [])
  | [x] => (x, false, [])
  | x :: rest => (x, true, intercalateChar '=' rest)

/-- Python dict insertion: a later binding of an existing key overwrites
the value in place, a new key is appended. -/
def pyDictInsert (acc : List (String × String)) (k v : String) :
    List (String × String) :=
  if acc.any (fun kv => kv.1 == k) then
    acc.map (fun kv => if kv.1 == k then (k, v) else kv)
  else acc ++ [(k, v)]

/-- The dict built from a list of pairs, as the Python dict constructor:
last occurrence of a name wins. -/
def pyDictOf (ps : List (String × String)) : List (String × String) :=
  ps.foldl (fun acc kv => pyDictInsert acc kv.1 kv.2) []

/-- Embeds FormUrlEncodedTranscoder.from_bytes: decode the bytes as ASCII
(a non ASCII byte raises, embedded as none), split on the ampersand, skip
empty segments, partition each segment at its first equals sign and
percent-decode both sides; a segment without an equals sign becomes the
pair of the name and the empty string; collect the pairs into a dict. -/
def formFromBytesPairs (opts : FormUrlEncodingOptions) (dataBytes : List Nat) :
    Option (List (String × String)) :=
  (bytesToAsciiStr dataBytes).map fun s =>
    let pairs := (splitOnChar '&' s.data).filterMap fun part =>
      if part.isEmpty then none
      else
        let trio := partitionEqChars part
        let dname := dequoteStr opts.spaceAsPlus trio.1
        if trio.2.1 then some (dname, dequoteStr opts.spaceAsPlus trio.2.2)
        else some (dname, "")
    pyDictOf pairs

/-- The from_bytes result as a Python object: a dict from strings to
strings. -/
def formFromBytes (opts : FormUrlEncodingOptions) (dataBytes : List Nat) :
    Option PyObj :=
  (formFromBytesPairs opts dataBytes).map fun m =>
    PyObj.pdict (m.map fun kv => (PyObj.pstr kv.1, PyObj.pstr kv.2))

/-! ### The MessagePack transcoder (transcoders.py) -/

mutual

/-- Embeds MsgPackTranscoder.normalize_datum with the branches in source
order: None, booleans, integers and floats pass through unchanged; UUID
values become their canonical strings; byte strings and strings pass
through; sequences normalize each element; mappings normalize each value
and pass keys through unchanged.  A value outside the table raises
TypeError, embedded as none. -/
def normalizeDatum : PyObj → Option PyObj
  | .pnone => some .pnone
  | .pbool b => some (.pbool b)
  | .pint n => some (.pint n)
  | .pfloat f => some (.pfloat f)
  | .puuid u => some (.pstr u)
  | .pbytes bs => some (.pbytes bs)
  | .pstr s => some (.pstr s)
  | .plist xs => (normalizeList xs).map .plist
  | .pdict kvs => (normalizeEntries kvs).map .pdict

/-- Elementwise normalization of a sequence. -/
def normalizeList : List PyObj → Option (List PyObj)
  | [] => some []
  | x :: xs =>
    (normalizeDatum x).bind fun y => (normalizeList xs).map (y :: ·)

/-- Valuewise normalization of a mapping; keys pass through unchanged. -/
def normalizeEntries : List (PyObj × PyObj) → Option (List (PyObj × PyObj))
  | [] => some []
  | kv :: rest =>
    (normalizeDatum kv.2).bind fun v =>
      (normalizeEntries rest).map ((kv.1, v) :: ·)

end

/-- Big endian byte pair of a value below 2 ^ 16. -/
def be16 (n : Nat) : List Nat := [n / 256 % 256, n % 256]

/-- Big endian four bytes of a value below 2 ^ 32. -/
def be32 (n : Nat) : List Nat :=
  [n / 16777216 % 256, n / 65536 % 256, n / 256 % 256, n % 256]

/-- Big endian eight bytes of a value below 2 ^ 64. -/
def be64 (n : Nat) : List Nat :=
  [n / 72057594037927936 % 256, n / 281474976710656 % 256,
   n / 1099511627776 % 256, n / 4294967296 % 256, n / 16777216 % 256,
   n / 65536 % 256, n / 256 % 256, n % 256]

/-- Modelled from the spec: the wire format packer of the external
umsgpack library selects the minimal width family for an integer by its
magnitude: positive fixint up to 127, then the unsigned families for
non-negative values, negative fixint down to minus 32, then the signed
families in two's complement; values outside 64 bits are unsupported. -/
def packInt (n : Int) : Option (List Nat) :=
  if 0 ≤ n then
    let m := n.toNat
    if m ≤ 127 then some [m]
    else if m ≤ 255 then some [0xCC, m]
    else if m ≤ 65535 then some (0xCD :: be16 m)
    else if m ≤ 4294967295 then some (0xCE :: be32 m)
    else if m ≤ 18446744073709551615 then some (0xCF :: be64 m)
    else none
  else
    let m := (-n).toNat
    if m ≤ 32 then some [256 - m]
    else if m ≤ 128 then some [0xD0, 256 - m]
    else if m ≤ 32768 then some (0xD1 :: be16 (65536 - m))
    else if m ≤ 2147483648 then some (0xD2 :: be32 (4294967296 - m))
    else if m ≤ 9223372036854775808 then
      some (0xD3 :: be64 (18446744073709551616 - m))
    else none

/-- Modelled from the spec: string family headers by byte length, minimal
width (fixstr, str 8, str 16, str 32). -/
def packStrHeader (len : Nat) : Option (List Nat) :=
  if len ≤ 31 then some [0xA0 + len]
  else if len ≤ 255 then some [0xD9, len]
  else if len ≤ 65535 then some (0xDA :: be16 len)
  else if len ≤ 4294967295 then some (0xDB :: be32 len)
  else none

/-- Modelled from the spec: bin family headers by byte length. -/
def packBinHeader (len : Nat) : Option (List Nat) :=
  if len ≤ 255 then some [0xC4, len]
  else if len ≤ 65535 then some (0xC5 :: be16 len)
  else if len ≤ 4294967295 then some (0xC6 :: be32 len)
  else none

/-- Modelled from the spec: array family headers by element count. -/
def packArrayHeader (len : Nat) : Option (List Nat) :=
  if len ≤ 15 then some [0x90 + len]
  else if len ≤ 65535 then some (0xDC :: be16 len)
  else if len ≤ 4294967295 then some (0xDD :: be32 len)
  else none

/-- Modelled from the spec: map family headers by entry count. -/
def packMapHeader (len : Nat) : Option (List Nat) :=
  if len ≤ 15 then some [0x80 + len]
  else if len ≤ 65535 then some (0xDE :: be16 len)
  else if len ≤ 4294967295 then some (0xDF :: be32 len)
  else none

mutual

/-- Modelled from the spec: the external umsgpack packb primitive over the
already normalized values; nil, bool, int, float, str, bin, array and map
families with canonical minimal headers.  A float is embedded as its
IEEE-754 double bit pattern and packs to the float64 family, the tag
0xCB followed by the eight big endian bytes of the pattern; a UUID
object reaching the packer is unsupported there. -/
def umsgpackPackb : PyObj → Option (List Nat)
  | .pnone => some [0xC0]
  | .pbool false => some [0xC2]
  | .pbool true => some [0xC3]
  | .pint n => packInt n
  | .pfloat bits =>
    if bits < 18446744073709551616 then some (0xCB :: be64 bits) else none
  | .puuid _ => none
  | .pstr s =>
    (packStrHeader (utf8Encode s).length).map (· ++ utf8Encode s)
  | .pbytes bs => (packBinHeader bs.length).map (· ++ bs)
  | .plist xs =>
    (packElems xs).bind fun body =>
      (packArrayHeader xs.length).map (· ++ body)
  | .pdict kvs =>
    (packPairs kvs).bind fun body =>
      (packMapHeader kvs.length).map (· ++ body)

/-- Concatenated packing of array elements. -/
def packElems : List PyObj → Option (List Nat)
  | [] => some []
  | x :: xs =>
    (umsgpackPackb x).bind fun bx => (packElems xs).map (bx ++ ·)

/-- Concatenated packing of map entries, key then value. -/
def packPairs : List (PyObj × PyObj) → Option (List Nat)
  | [] => some []
  | kv :: rest =>
    (umsgpackPackb kv.1).bind fun bk =>
      (umsgpackPackb kv.2).bind fun bv =>
        (packPairs rest).map (bk ++ bv ++ ·)

end

/-- Embeds MsgPackTranscoder.packb: normalize the value, then delegate to
the wire format packer. -/
def msgPackb (datum : PyObj) : Option (List Nat) :=
  (normalizeDatum datum).bind umsgpackPackb

/-- Take exactly n bytes from a stream, failing when too short. -/
def takeExact (n : Nat) (bs : List Nat) : Option (List Nat × List Nat) :=
  if n ≤ bs.length then some (bs.take n, bs.drop n) else none

/-- The value of a big endian byte list. -/
def beVal (bs : List Nat) : Nat := bs.foldl (fun a b => 256 * a + b) 0

mutual

/-- Modelled from the spec: the external umsgpack unpacker reads one value
from the byte stream and returns it with the remaining bytes.  The header
byte selects the family; string payloads decode as UTF-8, integer
families read big endian two's complement of their width; the fuel
argument only bounds the recursion depth and is chosen large enough at
the top level.  The float64 family reads the eight big endian bytes of
the IEEE-754 bit pattern the packer wrote; the float32 and ext families,
which the modelled packer never emits, are left out of the model. -/
def msgUnpack : Nat → List Nat → Option (PyObj × List Nat)
  | 0, _ => none
  | _+1, [] => none
  | fuel+1, b :: rest =>
    if b ≤ 127 then some (.pint (b : Int), rest)
    else if 224 ≤ b then some (.pint ((b : Int) - 256), rest)
    else if b ≤ 143 then
      (msgUnpackPairs fuel (b - 128) rest).map fun pr => (.pdict pr.1, pr.2)
    else if b ≤ 159 then
      (msgUnpackItems fuel (b - 144) rest).map fun ir => (.plist ir.1, ir.2)
    else if b ≤ 191 then
      (takeExact (b - 160) rest).map fun tr =>
        (.pstr (String.mk (utf8DecodeReplace tr.1)), tr.2)
    else if b = 192 then some (.pnone, rest)
    else if b = 194 then some (.pbool false, rest)
    else if b = 195 then some (.pbool true, rest)
    else if b = 196 then
      match rest with
      | len :: r => (takeExact len r).map fun tr => (.pbytes tr.1, tr.2)
      | [] => none
    else if b = 197 then
      (takeExact 2 rest).bind fun hr =>
        (takeExact (beVal hr.1) hr.2).map fun tr => (.pbytes tr.1, tr.2)
    else if b = 198 then
      (takeExact 4 rest).bind fun hr =>
        (takeExact (beVal hr.1) hr.2).map fun tr => (.pbytes tr.1, tr.2)
    else if b = 203 then
      (takeExact 8 rest).map fun hr => (.pfloat (beVal hr.1), hr.2)
    else if b = 204 then
      match rest with
      | v :: r => some (.pint (v : Int), r)
      | [] => none
    else if b = 205 then
      (takeExact 2 rest).map fun hr => (.pint (beVal hr.1 : Int), hr.2)
    else if b = 206 then
      (takeExact 4 rest).map fun hr => (.pint (beVal hr.1 : Int), hr.2)
    else if b = 207 then
      (takeExact 8 rest).map fun hr => (.pint (beVal hr.1 : Int), hr.2)
    else if b = 208 then
      match rest with
      | v :: r =>
        some (.pint (if 128 ≤ v then (v : Int) - 256 else (v : Int)), r)
      | [] => none
    else if b = 209 then
      (takeExact 2 rest).map fun hr =>
        (.pint (if 32768 ≤ beVal hr.1 then (beVal hr.1 : Int) - 65536
                else (beVal hr.1 : Int)), hr.2)
    else if b = 210 then
      (takeExact 4 rest).map fun hr =>
        (.pint (if 2147483648 ≤ beVal hr.1 then
                  (beVal hr.1 : Int) - 4294967296
                else (beVal hr.1 : Int)), hr.2)
    else if b = 211 then
      (takeExact 8 rest).map fun hr =>
        (.pint (if 9223372036854775808 ≤ beVal hr.1 then
                  (beVal hr.1 : Int) - 18446744073709551616
                else (beVal hr.1 : Int)), hr.2)
    else if b = 217 then
      match rest with
      | len :: r => (takeExact len r).map fun tr =>
          (.pstr (String.mk (utf8DecodeReplace tr.1)), tr.2)
      | [] => none
    else if b = 218 then
      (takeExact 2 rest).bind fun hr =>
        (takeExact (beVal hr.1) hr.2).map fun tr =>
          (.pstr (String.mk (utf8DecodeReplace tr.1)), tr.2)
    else if b = 219 then
      (takeExact 4 rest).bind fun hr =>
        (takeExact (beVal hr.1) hr.2).map fun tr =>
          (.pstr (String.mk (utf8DecodeReplace tr.1)), tr.2)
    else if b = 220 then
      (takeExact 2 rest).bind fun hr =>
        (msgUnpackItems fuel (beVal hr.1) hr.2).map fun ir =>
          (.plist ir.1, ir.2)
    else if b = 221 then
      (takeExact 4 rest).bind fun hr =>
        (msgUnpackItems fuel (beVal hr.1) hr.2).map fun ir =>
          (.plist ir.1, ir.2)
    else if b = 222 then
      (takeExact 2 rest).bind fun hr =>
        (msgUnpackPairs fuel (beVal hr.1) hr.2).map fun pr =>
          (.pdict pr.1, pr.2)
    else if b = 223 then
      (takeExact 4 rest).bind fun hr =>
        (msgUnpackPairs fuel (beVal hr.1) hr.2).map fun pr =>
          (.pdict pr.1, pr.2)
    else none

/-- Reads the given number of consecutive array elements. -/
def msgUnpackItems : Nat → Nat → List Nat → Option (List PyObj × List Nat)
  | _, 0, bs => some ([], bs)
  | 0, _+1, _ => none
  | fuel+1, n+1, bs =>
    (msgUnpack fuel bs).bind fun xr =>
      (msgUnpackItems fuel n xr.2).map fun lr => (xr.1 :: lr.1, lr.2)

/-- Reads the given number of consecutive key value entries. -/
def msgUnpackPairs :
    Nat → Nat → List Nat → Option (List (PyObj × PyObj) × List Nat)
  | _, 0, bs => some ([], bs)
  | 0, _+1, _ => none
  | fuel+1, n+1, bs =>
    (msgUnpack fuel bs).bind fun kr =>
      (msgUnpack fuel kr.2).bind fun vr =>
        (msgUnpackPairs fuel n vr.2).map fun pr =>
          ((kr.1, vr.1) :: pr.1, pr.2)

end

/-- Modelled from the spec: umsgpack.unpackb reads one value from the
byte string; the fuel bound of twice the length plus two dominates the
recursion depth of any value packed into that many bytes. -/
def umsgpackUnpackb (bs : List Nat) : Option PyObj :=
  (msgUnpack (2 * bs.length + 2) bs).map Prod.fst

/-- Embeds MsgPackTranscoder.unpackb, which delegates to the external
unpacker with no denormalization step. -/
def msgUnpackb (bs : List Nat) : Option PyObj :=
  umsgpackUnpackb bs

mutual

/-- The recursion depth needed to unpack a packed value. -/
def msgFuel : PyObj → Nat
  | .plist xs => msgFuelList xs + 1
  | .pdict kvs => msgFuelPairs kvs + 1
  | _ => 1

/-- Depth needed for a run of array elements. -/
def msgFuelList : List PyObj → Nat
  | [] => 0
  | x :: xs => max (msgFuel x) (msgFuelList xs) + 1

/-- Depth needed for a run of map entries. -/
def msgFuelPairs : List (PyObj × PyObj) → Nat
  | [] => 0
  | kv :: rest =>
    max (msgFuel kv.1) (max (msgFuel kv.2) (msgFuelPairs rest)) + 1

end

/-! ### Transcoder objects and registration helpers (content.py) -/

/-- A transcoder as registered in the settings: its content type identity
and its two conversion functions, each fallible (a raised exception is
none). -/
structure Transcoder where
  contentType : String
  toBytesFn : PyObj → Option (String × List Nat)
  fromBytesFn : List Nat → Option PyObj

/-- Embeds add_transcoder from content.py: store the transcoder under the
override content type if one is given and truthy (the source uses the
Python or operator, so an empty override string also falls back to the
transcoder's own content type). -/
def addTranscoder (s : ContentSettings Transcoder) (t : Transcoder)
    (contentTypeOverride : Option String) :
    Option (ContentSettings Transcoder) :=
  let chosen :=
    match contentTypeOverride with
    | some c => if c.isEmpty then t.contentType else c
    | none => t.contentType
  setItem s chosen t

/-- The FormUrlEncodedTranscoder object with given options. -/
def formTranscoder (opts : FormUrlEncodingOptions) : Transcoder :=
  { contentType := formContentType
    toBytesFn := formToBytes opts
    fromBytesFn := formFromBytes opts }

/-! ### ContentMixin (content.py) -/

/-- Embeds the per request fields set by ContentMixin.initialize.  The
request body cache is a Python attribute initialized to None; since a
decoded body can itself be None, the None value doubles as the absent
marker, which the embedding keeps faithfully by storing a PyObj whose
pnone value plays that role. -/
structure HandlerState where
  requestBody : PyObj
  bestResponseMatch : Option String

/-- The state right after initialize. -/
def initialHandlerState : HandlerState :=
  { requestBody := .pnone, bestResponseMatch := none }

/-- Outcome of get_request_body: a decoded value, a tornado HTTPError
with a status code, or an exception escaping the handler (the code path
where no header and no default leaves None to be parsed). -/
inductive BodyOutcome where
  | ok (v : PyObj)
  | httpError (status : Nat)
  | pythonError

/-- Embeds ContentMixin.get_request_body.  When the cached body is still
the None sentinel: take the Content-Type header, falling back to the
default content type; parse it, turning a ValueError into HTTPError 400;
build the slash joined type, subtype and optional plus suffix; look that
up in the settings, turning a KeyError into HTTPError 415; decode the
request body with the handler, turning any exception into HTTPError 400
and caching a successful result.  Returns the outcome, the new state and
how many times the handler decode function ran. -/
def getRequestBodyStep (settings : ContentSettings Transcoder)
    (headerContentType : Option String) (body : List Nat)
    (st : HandlerState) : BodyOutcome × HandlerState × Nat :=
  match st.requestBody with
  | .pnone =>
    match headerContentType.orElse (fun _ => settings.defaultContentType) with
    | none => (.pythonError, st, 0)
    | some ctRaw =>
      match parseContentType ctRaw with
      | none => (.httpError 400, st, 0)
      | some parsed =>
        match getItem settings (typeSubtypeKey parsed) with
        | none => (.httpError 415, st, 0)
        | some handler =>
          match handler.fromBytesFn body with
          | none => (.httpError 400, st, 1)
          | some v => (.ok v, { st with requestBody := v }, 1)
  | v => (.ok v, st, 0)

/-- Embeds ContentMixin.get_response_content_type.  The outcome of the
external best match selection over the parsed Accept header and the
ordered available types is supplied as an argument (some selected type, or
none for its NoMatch error); fixed headers and a fixed registry make it a
fixed value.  When the cache is empty the selection runs once: a match
caches its slash joined type, subtype and optional suffix, NoMatch caches
the default content type.  Returns the value, the new state, and how many
times the selection ran. -/
def getResponseContentTypeStep {α : Type} (settings : ContentSettings α)
    (matchResult : Option ContentType) (st : HandlerState) :
    Option String × HandlerState × Nat :=
  match st.bestResponseMatch with
  | some v => (some v, st, 0)
  | none =>
    let resolved :=
      match matchResult with
      | some selected => some (typeSubtypeKey selected)
      | none => settings.defaultContentType
    (resolved, { st with bestResponseMatch := resolved }, 1)

/-! ### Concrete objects and helper lemmas used by the theorems -/

/-- A transcoder mirroring the JSON transcoder on the three JSON literal
bodies: null decodes to None, true and false decode to the booleans, and
any other body raises (the general JSON grammar is not needed here). -/
def literalJsonCodec : Transcoder :=
  { contentType := "application/json"
    toBytesFn := fun v =>
      match v with
      | .pnone => some ("application/json", asciiCodes "null")
      | .pbool true => some ("application/json", asciiCodes "true")
      | .pbool false => some ("application/json", asciiCodes "false")
      | _ => none
    fromBytesFn := fun bs =>
      if bs = asciiCodes "null" then some .pnone
      else if bs = asciiCodes "true" then some (.pbool true)
      else if bs = asciiCodes "false" then some (.pbool false)
      else none }

/-- Settings with the literal JSON codec registered and the JSON content
type as default. -/
def demoSettings : ContentSettings Transcoder :=
  (setItem
    { handlers := [], availableTypes := [],
      defaultContentType := some "application/json" }
    "application/json" literalJsonCodec).getD (emptySettings Transcoder)

theorem lookupHandler_append_self {α : Type} (hs : List (String × α))
    (key : String) (x : α) (h : lookupHandler hs key = none) :
    lookupHandler (hs ++ [(key, x)]) key = some x := by
  induction hs with
  | nil =>
    unfold lookupHandler
    simp [List.find?_cons]
  | cons kv rest ih =>
    unfold lookupHandler at h ⊢
    by_cases hk : (kv.1 == key) = true
    · simp [List.find?_cons, hk] at h
    · simp only [List.find?_cons, hk] at h
      simp only [List.cons_append, List.find?_cons, hk]
      exact ih h

theorem lookupHandler_none_of_not_any {α : Type} (hs : List (String × α))
    (key : String) (h : ¬ hs.any (fun kv => kv.1 == key) = true) :
    lookupHandler hs key = none := by
  unfold lookupHandler
  rw [List.find?_eq_none.mpr]
  · rfl
  · intro x hx hpx
    exact h (List.any_eq_true.mpr ⟨x, hx, hpx⟩)

theorem lookup_pyDictInsert (acc : List (String × String)) (k v : String) :
    lookupHandler (pyDictInsert acc k v) k = some v := by
  unfold pyDictInsert
  by_cases hany : acc.any (fun kv => kv.1 == k) = true
  · simp only [hany, if_true]
    induction acc with
    | nil => simp at hany
    | cons kv rest ih =>
      by_cases hk : (kv.1 == k) = true
      · unfold lookupHandler
        rw [List.map_cons, if_pos hk]
        simp [List.find?_cons]
      · unfold lookupHandler
        rw [List.map_cons, if_neg hk]
        simp only [List.find?_cons, hk]
        have hany2 : rest.any (fun kv => kv.1 == k) = true := by
          rcases List.any_eq_true.mp hany with ⟨x, hx, hpx⟩
          cases List.mem_cons.mp hx with
          | inl he => exact absurd (he ▸ hpx) (by simpa using hk)
          | inr hmem => exact List.any_eq_true.mpr ⟨x, hmem, hpx⟩
        exact ih hany2
  · simp only [hany, if_false]
    exact lookupHandler_append_self acc k v
      (lookupHandler_none_of_not_any acc k hany)

theorem sortParams_perm_eq {ps qs : List (String × String)}
    (h : ps.Perm qs) : sortParams ps = sortParams qs := by
  unfold sortParams
  exact List.eq_of_perm_of_sorted
    ((List.perm_insertionSort paramLe ps).trans
      (h.trans (List.perm_insertionSort paramLe qs).symm))
    (List.sorted_insertionSort paramLe ps)
    (List.sorted_insertionSort paramLe qs)

theorem canonicalStr_congr {pa pb : ContentType}
    (ht : pa.contentType = pb.contentType)
    (hs : pa.contentSubtype = pb.contentSubtype)
    (hx : pa.contentSuffix = pb.contentSuffix)
    (hperm : pa.parameters.Perm pb.parameters) :
    canonicalStr pa = canonicalStr pb := by
  unfold canonicalStr typeSubtypeKey renderParams
  rw [ht, hs, hx, sortParams_perm_eq hperm]

/-! ### Claim theorems -/

/-- C2 counterexample: the form codec encodes the mapping of a to null,
b to true and c to false as the byte string a&b=true&c=false - a null
value yields a bare name with no equals sign - which is not the byte
string a=&b=true&c=false stated by the claim. -/
theorem c2_null_value_encoding_counterexample :
    formToBytes defaultFormOptions
      (.pdict [(.pstr "a", .pnone), (.pstr "b", .pbool true),
               (.pstr "c", .pbool false)]) =
      some (formContentType, asciiCodes "a&b=true&c=false") ∧
    asciiCodes "a&b=true&c=false" ≠ asciiCodes "a=&b=true&c=false" :=
  ⟨rfl, by decide⟩

/-- C2 amended: encoding the mapping of a to null, b to true and c to
false produces exactly the byte string a&b=true&c=false: the literal
table sends true to true and false to false and each such pair is written
name=value joined by ampersands, while a null valued field emits only the
percent-encoded name with no equals sign (its decode restores the empty
string); null still maps to the empty string in the literal table, which
applies when null appears in name position. -/
theorem c2_form_literal_encoding_amended :
    formToBytes defaultFormOptions
      (.pdict [(.pstr "a", .pnone), (.pstr "b", .pbool true),
               (.pstr "c", .pbool false)]) =
      some (formContentType, asciiCodes "a&b=true&c=false") ∧
    formEncodeDatum defaultFormOptions .pnone = some "" ∧
    formEncodeDatum defaultFormOptions (.pbool true) = some "true" ∧
    formEncodeDatum defaultFormOptions (.pbool false) = some "false" ∧
    formToBytes defaultFormOptions (.pdict [(.pstr "b", .pbool true)]) =
      some (formContentType, asciiCodes "b=true") ∧
    formFromBytesPairs defaultFormOptions (asciiCodes "a&b=true&c=false") =
      some [("a", ""), ("b", "true"), ("c", "false")] :=
  ⟨rfl, rfl, rfl, rfl, rfl, by decide⟩

/-- C5: the percent-encoding table is built over range(0, 255), so byte
255 has no entry and encoding a byte string containing 0xFF raises a
KeyError instead of producing the escape %FF; every byte below 255
behaves as the claim says: unreserved bytes pass through literally,
space becomes %20 (or plus under the space-as-plus option) and every
other byte becomes its two digit uppercase escape. -/
theorem c5_percent_encoding_table_bug :
    formUrlEncoding 255 = none ∧
    formToBytes defaultFormOptions (.pbytes [255]) = none ∧
    formToBytes defaultFormOptions (.pbytes [0xFE, 0xED, 0xFA, 0xCE]) =
      some (formContentType, asciiCodes "%FE%ED%FA%CE") ∧
    (∀ b : Fin 255, formUrlEncoding b.val =
      some (if isUnreservedByte b.val then String.mk [Char.ofNat b.val]
            else pctHex b.val)) ∧
    formUrlEncoding 32 = some "%20" ∧
    formUrlEncodingPlus 32 = some "+" := by
  refine ⟨rfl, rfl, rfl, ?_, rfl, rfl⟩
  intro b
  unfold formUrlEncoding
  by_cases h : isUnreservedByte b.val = true
  · simp [h]
  · simp [h, b.isLt]

/-- C6: registering a codec under a canonical key that is already present
leaves the settings record literally unchanged - so both the handler
mapping and the ordered available types list are untouched - and a
subsequent lookup returns the codec stored by the first registration. -/
theorem c6_duplicate_registration_noop {α : Type} (s s0 : ContentSettings α)
    (k : String) (p : ContentType) (x y : α)
    (hp : parseContentType k = some p) :
    (lookupHandler s.handlers (canonicalStr p) ≠ none →
      setItem s k y = some s) ∧
    (lookupHandler s0.handlers (canonicalStr p) = none →
      ∀ s1, setItem s0 k x = some s1 →
        setItem s1 k y = some s1 ∧ getItem s1 k = some x) := by
  constructor
  · intro hreg
    unfold setItem
    rw [hp]
    simp [Option.isSome_iff_ne_none.mpr hreg]
  · intro hfresh s1 hset
    unfold setItem at hset
    rw [hp] at hset
    simp [hfresh] at hset
    have hlook : lookupHandler s1.handlers (canonicalStr p) = some x := by
      rw [← hset]
      exact lookupHandler_append_self _ _ _ hfresh
    constructor
    · unfold setItem
      rw [hp]
      simp [hlook]
    · unfold getItem
      rw [hp]
      simpa using hlook

/-- Witness for C6 at a concrete registry: registering the JSON key twice
leaves the single entry settings unchanged and the lookup returns the
first codec. -/
theorem c6_duplicate_registration_noop_witness :
    setItem
      { handlers := [("application/json", 1)],
        availableTypes := [⟨"application", "json", none, []⟩],
        defaultContentType := none } "application/json" (2 : Nat) =
      some
        { handlers := [("application/json", 1)],
          availableTypes := [⟨"application", "json", none, []⟩],
          defaultContentType := none } ∧
    getItem
      { handlers := [("application/json", 1)],
        availableTypes := [⟨"application", "json", none, []⟩],
        defaultContentType := none } "application/json" = some 1 :=
  (c6_duplicate_registration_noop
    { handlers := [("application/json", 1)],
      availableTypes := [⟨"application", "json", none, []⟩],
      defaultContentType := none }
    (emptySettings Nat) "application/json" ⟨"application", "json", none, []⟩
    1 2 rfl).2 rfl _ rfl

/-- C7: two content type strings whose parses agree on type, subtype and
suffix and whose parameter lists are permutations of one another (the
parse already lower-cases parameter names) address the same registry
entry; concretely, registering under application/json with parameters
b=2; a=1 makes lookups under a=1; b=2 and under upper case A=1; B=2
return the codec, while an omitted versus present parameter addresses a
distinct entry in either direction. -/
theorem c7_canonical_key_normalization {α : Type} (s : ContentSettings α)
    (a b : String) (pa pb : ContentType)
    (ha : parseContentType a = some pa) (hb : parseContentType b = some pb)
    (ht : pa.contentType = pb.contentType)
    (hsub : pa.contentSubtype = pb.contentSubtype)
    (hsfx : pa.contentSuffix = pb.contentSuffix)
    (hperm : pa.parameters.Perm pb.parameters) :
    getItem s a = getItem s b ∧
    ((setItem (emptySettings Nat) "application/json; b=2; a=1" 7).bind
      (fun s1 => getItem s1 "application/json; a=1; b=2")) = some 7 ∧
    ((setItem (emptySettings Nat) "application/json; b=2; a=1" 7).bind
      (fun s1 => getItem s1 "application/json; A=1; B=2")) = some 7 ∧
    ((setItem (emptySettings Nat) "application/json; a=1" 7).bind
      (fun s1 => getItem s1 "application/json")) = none ∧
    ((setItem (emptySettings Nat) "application/json" 7).bind
      (fun s1 => getItem s1 "application/json; a=1")) = none := by
  refine ⟨?_, by decide, by decide, by decide, by decide⟩
  unfold getItem
  rw [ha, hb]
  simp only [Option.some_bind]
  rw [canonicalStr_congr ht hsub hsfx hperm]

/-- Witness for C7: the parameter order insensitivity applied to the two
concrete spellings of the JSON content type with two parameters. -/
theorem c7_canonical_key_normalization_witness :
    getItem (emptySettings Nat) "application/json; b=2; a=1" =
      getItem (emptySettings Nat) "application/json; a=1; B=2" :=
  (c7_canonical_key_normalization (emptySettings Nat)
    "application/json; b=2; a=1" "application/json; a=1; B=2"
    ⟨"application", "json", none, [("b", "2"), ("a", "1")]⟩
    ⟨"application", "json", none, [("a", "1"), ("b", "2")]⟩
    rfl rfl rfl rfl rfl (by decide)).1

/-- C9: MessagePack encoding normalizes first - null, booleans, integers
and floats pass through unchanged - and then packs to the exact canonical
wire bytes: null to the single nil byte, true and false to their single
bytes, and integers to the minimal width families, with 127 in one byte
and 128 as the uint8 pair; in general every integer in the fixint range
packs to one byte and every integer from 128 to 255 packs to the uint8
pair. -/
theorem c9_msgpack_wire_exactness :
    msgPackb .pnone = some [0xC0] ∧
    msgPackb (.pbool true) = some [0xC3] ∧
    msgPackb (.pbool false) = some [0xC2] ∧
    normalizeDatum .pnone = some .pnone ∧
    (∀ bv : Bool, normalizeDatum (.pbool bv) = some (.pbool bv)) ∧
    (∀ n : Int, normalizeDatum (.pint n) = some (.pint n)) ∧
    (∀ f : Nat, normalizeDatum (.pfloat f) = some (.pfloat f)) ∧
    msgPackb (.pint 127) = some [127] ∧
    msgPackb (.pint 128) = some [0xCC, 0x80] ∧
    (∀ n : Int, 0 ≤ n → n ≤ 127 → msgPackb (.pint n) = some [n.toNat]) ∧
    (∀ n : Int, 128 ≤ n → n ≤ 255 →
      msgPackb (.pint n) = some [0xCC, n.toNat]) := by
  refine ⟨rfl, rfl, rfl, rfl, fun bv => rfl, fun n => rfl, fun f => rfl,
    rfl, rfl, ?_, ?_⟩
  · intro n h1 h2
    have hm : n.toNat ≤ 127 := by omega
    simp [msgPackb, normalizeDatum, umsgpackPackb, packInt, h1, hm]
  · intro n h1 h2
    have h0 : 0 ≤ n := by omega
    have hm1 : ¬ n.toNat ≤ 127 := by omega
    have hm2 : n.toNat ≤ 255 := by omega
    simp [msgPackb, normalizeDatum, umsgpackPackb, packInt, h0, hm1, hm2]

/-- Witness for C9: the general integer family statements applied at five
and at two hundred. -/
theorem c9_msgpack_wire_exactness_witness :
    msgPackb (.pint 5) = some [5] ∧
    msgPackb (.pint 200) = some [0xCC, 200] := by
  have h := c9_msgpack_wire_exactness
  exact ⟨h.2.2.2.2.2.2.2.2.2.1 5 (by decide) (by decide),
         h.2.2.2.2.2.2.2.2.2.2 200 (by decide) (by decide)⟩

/-- C10: the form transcoder's identity string is the literal spelling
without the hyphen between form and urlencoded; every successful encode
returns it as the content type; registering the transcoder without an
override stores it exactly under this key, so a lookup under the standard
spelling with the hyphen finds nothing. -/
theorem c10_nonstandard_form_content_type :
    formContentType = "application/x-www-formurlencoded" ∧
    (∀ (opts : FormUrlEncodingOptions) (d : PyObj) (r : String × List Nat),
      formToBytes opts d = some r → r.1 = formContentType) ∧
    (addTranscoder (emptySettings Transcoder)
        (formTranscoder defaultFormOptions) none).bind
      (fun s => getItem s "application/x-www-formurlencoded") =
      some (formTranscoder defaultFormOptions) ∧
    (addTranscoder (emptySettings Transcoder)
        (formTranscoder defaultFormOptions) none).bind
      (fun s => getItem s "application/x-www-form-urlencoded") = none := by
  refine ⟨rfl, ?_, rfl, rfl⟩
  intro opts d r h
  unfold formToBytes at h
  simp only [Option.bind_eq_some, Option.map_eq_some'] at h
  obtain ⟨parts, h1, bs, h2, h3⟩ := h
  rw [← h3]

/-- Witness for C10: a successful concrete encode carries the
nonstandard content type string. -/
theorem c10_nonstandard_form_content_type_witness :
    formToBytes defaultFormOptions (.pdict [(.pstr "a", .pstr "b")]) =
      some (formContentType, asciiCodes "a=b") ∧
    (formContentType, asciiCodes "a=b").1 = formContentType :=
  ⟨rfl, c10_nonstandard_form_content_type.2.1 defaultFormOptions
    (.pdict [(.pstr "a", .pstr "b")]) (formContentType, asciiCodes "a=b") rfl⟩

/-- C1 counterexample: with a codec registered and a Content-Type header
that fails to parse, get_request_body raises HTTPError 400, not the 415
stated by the claim. -/
theorem c1_parse_failure_gives_400_counterexample :
    (getRequestBodyStep demoSettings (some "gibberish") []
      initialHandlerState).1 = .httpError 400 ∧ (400 : Nat) ≠ 415 :=
  ⟨rfl, by decide⟩

/-- C1 amended: on a fresh request whose effective content type string is
the header or, in its absence, the registry default: a parse failure
raises status 400; a parsed type whose slash joined type, subtype and
optional suffix has no registered codec raises status 415; a registered
codec whose decode throws raises status 400; and a successful decode
returns the decoded value. -/
theorem c1_request_body_error_mapping
    (settings : ContentSettings Transcoder) (headerCT : Option String)
    (body : List Nat) (ctRaw : String)
    (heff : headerCT.orElse (fun _ => settings.defaultContentType) =
      some ctRaw) :
    (parseContentType ctRaw = none →
      (getRequestBodyStep settings headerCT body initialHandlerState).1 =
        .httpError 400) ∧
    (∀ parsed, parseContentType ctRaw = some parsed →
      getItem settings (typeSubtypeKey parsed) = none →
      (getRequestBodyStep settings headerCT body initialHandlerState).1 =
        .httpError 415) ∧
    (∀ parsed handler, parseContentType ctRaw = some parsed →
      getItem settings (typeSubtypeKey parsed) = some handler →
      handler.fromBytesFn body = none →
      (getRequestBodyStep settings headerCT body initialHandlerState).1 =
        .httpError 400) ∧
    (∀ parsed handler v, parseContentType ctRaw = some parsed →
      getItem settings (typeSubtypeKey parsed) = some handler →
      handler.fromBytesFn body = some v →
      (getRequestBodyStep settings headerCT body initialHandlerState).1 =
        .ok v) := by
  refine ⟨?_, ?_, ?_, ?_⟩
  · intro hp
    simp [getRequestBodyStep, initialHandlerState, heff, hp]
  · intro parsed hp hitem
    simp [getRequestBodyStep, initialHandlerState, heff, hp, hitem]
  · intro parsed handler hp hitem hdec
    simp [getRequestBodyStep, initialHandlerState, heff, hp, hitem, hdec]
  · intro parsed handler v hp hitem hdec
    simp [getRequestBodyStep, initialHandlerState, heff, hp, hitem, hdec]

/-- Witness for C1: a parseable JSON content type with a registered codec
and a null body decodes successfully. -/
theorem c1_request_body_error_mapping_witness :
    (getRequestBodyStep demoSettings (some "application/json")
      (asciiCodes "null") initialHandlerState).1 = .ok .pnone := by
  have h := c1_request_body_error_mapping demoSettings
    (some "application/json") (asciiCodes "null") "application/json" rfl
  exact h.2.2.2 ⟨"application", "json", none, []⟩ literalJsonCodec .pnone
    rfl rfl rfl

theorem cacheStep_ok (settings : ContentSettings Transcoder)
    (hct : Option String) (body : List Nat) (st : HandlerState) (v : PyObj)
    (st1 : HandlerState) (n1 : Nat)
    (h : getRequestBodyStep settings hct body st = (.ok v, st1, n1)) :
    st1.requestBody = v := by
  unfold getRequestBodyStep at h
  repeat' split at h
  all_goals simp_all
  · obtain ⟨h1, h2, h3⟩ := h
    rw [← h2]
    simp [h1]
  · obtain ⟨h1, h2, h3⟩ := h
    rw [← h2]
    exact h1

theorem stateShape_ok (settings : ContentSettings Transcoder)
    (hct : Option String) (body : List Nat) (st : HandlerState) (v : PyObj)
    (st1 : HandlerState) (n1 : Nat)
    (h : getRequestBodyStep settings hct body st = (.ok v, st1, n1)) :
    st1 = st ∨ st1 = { st with requestBody := v } := by
  unfold getRequestBodyStep at h
  repeat' split at h
  all_goals simp_all
  obtain ⟨h1, h2, h3⟩ := h
  right
  rw [← h2, h1]

theorem cachedStep (settings : ContentSettings Transcoder)
    (hct : Option String) (body : List Nat) (st : HandlerState) (v : PyObj)
    (hv : v ≠ .pnone) (hst : st.requestBody = v) :
    getRequestBodyStep settings hct body st = (.ok v, st, 0) := by
  unfold getRequestBodyStep
  rw [hst]
  cases v <;> first | exact absurd rfl hv | rfl

theorem respStep {α : Type} (settings : ContentSettings α)
    (mres : Option ContentType) (st : HandlerState) (v : String)
    (st1 : HandlerState) (n1 : Nat)
    (h : getResponseContentTypeStep settings mres st = (some v, st1, n1)) :
    getResponseContentTypeStep settings mres st1 = (some v, st1, 0) := by
  unfold getResponseContentTypeStep at h ⊢
  split at h
  · rename_i w heq
    obtain ⟨h1, h2, h3⟩ := by simpa using h
    rw [← h2, heq, h1]
  · rename_i heq
    obtain ⟨h1, h2, h3⟩ := by simpa using h
    rw [← h2]
    simp only []
    rw [h1]

/-- C3 counterexample: with the literal JSON codec registered and a body
consisting of the null literal, the decoded value is None, which is the
cache sentinel: the first call runs the codec once, the state is left
equal to the fresh state, and the second call with unchanged request
state runs the codec a second time instead of returning the memo. -/
theorem c3_null_body_defeats_cache_counterexample :
    (getRequestBodyStep demoSettings (some "application/json")
      (asciiCodes "null") initialHandlerState) =
      (.ok .pnone, initialHandlerState, 1) ∧
    (getRequestBodyStep demoSettings (some "application/json")
      (asciiCodes "null")
      (getRequestBodyStep demoSettings (some "application/json")
        (asciiCodes "null") initialHandlerState).2.1).2.2 = 1 :=
  ⟨rfl, rfl⟩

/-- C3 amended: the per request caches memoize subject to the None
sentinel.  A successful get_request_body whose decoded value is not null
caches it: the second call with unchanged request state returns the same
value, leaves the state unchanged and does not invoke the codec.  A
resolved response content type is always memoized: the second call
returns the identical string without re-running the selection.  When the
decoded body is null, caching fails: the state stays as it was and a
repeated call re-runs the codec with the same outcome. -/
theorem c3_memoization_amended :
    (∀ (settings : ContentSettings Transcoder) (headerCT : Option String)
        (body : List Nat) (st st1 : HandlerState) (v : PyObj) (n1 : Nat),
      getRequestBodyStep settings headerCT body st = (.ok v, st1, n1) →
      v ≠ .pnone →
      getRequestBodyStep settings headerCT body st1 = (.ok v, st1, 0)) ∧
    (∀ {α : Type} (settings : ContentSettings α)
        (matchResult : Option ContentType) (st st1 : HandlerState)
        (v : String) (n1 : Nat),
      getResponseContentTypeStep settings matchResult st =
        (some v, st1, n1) →
      getResponseContentTypeStep settings matchResult st1 =
        (some v, st1, 0)) ∧
    (∀ (settings : ContentSettings Transcoder) (headerCT : Option String)
        (body : List Nat) (st st1 : HandlerState) (n1 : Nat),
      st.requestBody = .pnone →
      getRequestBodyStep settings headerCT body st = (.ok .pnone, st1, n1) →
      st1 = st ∧
      getRequestBodyStep settings headerCT body st1 =
        (.ok .pnone, st1, n1)) := by
  refine ⟨?_, ?_, ?_⟩
  · intro settings hct body st st1 v n1 h hv
    exact cachedStep settings hct body st1 v hv
      (cacheStep_ok settings hct body st v st1 n1 h)
  · intro α settings mres st st1 v n1 h
    exact respStep settings mres st v st1 n1 h
  · intro settings hct body st st1 n1 hpn h
    have hse : st1 = st := by
      rcases stateShape_ok settings hct body st .pnone st1 n1 h with h1 | h1
      · exact h1
      · rw [h1]
        cases st
        simp_all
    refine ⟨hse, ?_⟩
    rw [hse] at h ⊢
    exact h

/-- Witness for C3: after a first call decoded the body true, the second
call returns the cached boolean without invoking the codec. -/
theorem c3_memoization_amended_witness :
    getRequestBodyStep demoSettings (some "application/json")
      (asciiCodes "true")
      { requestBody := .pbool true, bestResponseMatch := none } =
      (.ok (.pbool true),
        { requestBody := .pbool true, bestResponseMatch := none }, 0) := by
  have h := c3_memoization_amended
  exact h.1 demoSettings (some "application/json") (asciiCodes "true")
    initialHandlerState
    { requestBody := .pbool true, bestResponseMatch := none }
    (.pbool true) 1 rfl (by intro hx; exact PyObj.noConfusion hx)

theorem pyDictOf_last_wins (ps : List (String × String)) (k v : String) :
    lookupHandler (pyDictOf (ps ++ [(k, v)])) k = some v := by
  unfold pyDictOf
  rw [List.foldl_append]
  exact lookup_pyDictInsert _ k v

/-- C4 counterexample: the decoder first decodes the body as ASCII, so a
byte string containing the byte 128 raises a UnicodeDecodeError instead of
returning a mapping, against the claim that decoding never fails on any
input byte string. -/
theorem c4_nonascii_decode_failure_counterexample :
    formFromBytesPairs defaultFormOptions [128] = none ∧
    formFromBytes defaultFormOptions [128] = none :=
  ⟨rfl, rfl⟩

/-- C4 amended: on every ASCII input byte string the decoder succeeds and
returns a mapping built by splitting on the ampersand, discarding empty
segments, percent-decoding both sides of the first equals sign and
mapping an equals-free segment to the pair of the name and the empty
string, with the last occurrence of a duplicated name winning; a non
ASCII byte raises instead.  Concretely x=1&x=2 decodes to the single pair
x to 2 and the empty byte string decodes to the empty mapping. -/
theorem c4_form_decode_amended :
    (∀ bs : List Nat, (∀ b ∈ bs, b < 128) →
      (formFromBytesPairs defaultFormOptions bs).isSome = true) ∧
    formFromBytesPairs defaultFormOptions (asciiCodes "x=1&x=2") =
      some [("x", "2")] ∧
    formFromBytesPairs defaultFormOptions [] = some [] ∧
    formFromBytesPairs defaultFormOptions (asciiCodes "flag&&a=b=c") =
      some [("flag", ""), ("a", "b=c")] ∧
    formFromBytesPairs defaultFormOptions (asciiCodes "a%20b=c%26d") =
      some [("a b", "c&d")] ∧
    (∀ (ps : List (String × String)) (k v : String),
      lookupHandler (pyDictOf (ps ++ [(k, v)])) k = some v) := by
  refine ⟨?_, by decide, rfl, by decide, by decide, ?_⟩
  · intro bs hb
    unfold formFromBytesPairs
    have hs : bytesToAsciiStr bs = some (String.mk (bs.map Char.ofNat)) := by
      unfold bytesToAsciiStr
      rw [if_pos]
      exact List.all_eq_true.mpr (fun b hbm => decide_eq_true (hb b hbm))
    rw [hs]
    rfl
  · exact pyDictOf_last_wins

/-- Witness for C4: totality applied to a concrete ASCII body and the last
occurrence wins law applied to a duplicated name. -/
theorem c4_form_decode_amended_witness :
    (formFromBytesPairs defaultFormOptions (asciiCodes "x=1")).isSome =
      true ∧
    lookupHandler (pyDictOf ([("x", "1")] ++ [("x", "2")])) "x" =
      some "2" := by
  have h := c4_form_decode_amended
  exact ⟨h.1 (asciiCodes "x=1") (by decide),
         h.2.2.2.2.2 [("x", "1")] "x" "2"⟩

/-! ### UTF-8 encode and decode are mutually inverse on valid strings -/

theorem charValid (c : Char) :
    c.toNat < 55296 ∨ (57343 < c.toNat ∧ c.toNat < 1114112) := by
  have hv := c.valid
  unfold UInt32.isValidChar at hv
  unfold Nat.isValidChar at hv
  exact hv

theorem utf8DecodeLoop_nil (fuel : Nat) : utf8DecodeLoop fuel [] = [] := by
  cases fuel <;> rfl

theorem utf8DecodeLoop_single (fuel n : Nat) (rest : List Nat)
    (h1 : n < 0x80) :
    utf8DecodeLoop (fuel + 1) (n :: rest) =
      Char.ofNat n :: utf8DecodeLoop fuel rest := by
  conv_lhs => unfold utf8DecodeLoop
  rw [if_pos h1]

theorem utf8DecodeLoop_double (fuel n : Nat) (rest : List Nat)
    (h1 : 0x80 ≤ n) (h2 : n < 0x800) :
    utf8DecodeLoop (fuel + 1) ((0xC0 + n / 64) :: (0x80 + n % 64) :: rest) =
      Char.ofNat n :: utf8DecodeLoop fuel rest := by
  conv_lhs => unfold utf8DecodeLoop
  split
  · omega
  · split
    · split
      · rename_i hc
        injection hc with hc1 hc2
        subst hc1
        subst hc2
        rw [if_pos (by simp only [Bool.and_eq_true, decide_eq_true_eq]; omega)]
        have he : (0xC0 + n / 64 - 0xC0) * 64 + (0x80 + n % 64 - 0x80) = n :=
          by omega
        rw [he]
      · rename_i hc
        exact absurd hc (by simp)
    · rename_i hb
      simp only [Bool.and_eq_true, decide_eq_true_eq] at hb
      omega

theorem utf8DecodeLoop_triple (fuel n : Nat) (rest : List Nat)
    (h1 : 0x800 ≤ n) (h2 : n < 0x10000)
    (h3 : ¬ (0xD800 ≤ n ∧ n ≤ 0xDFFF)) :
    utf8DecodeLoop (fuel + 1)
      ((0xE0 + n / 4096) :: (0x80 + n / 64 % 64) :: (0x80 + n % 64) :: rest) =
      Char.ofNat n :: utf8DecodeLoop fuel rest := by
  conv_lhs => unfold utf8DecodeLoop
  split
  · omega
  · split
    · rename_i hb
      simp only [Bool.and_eq_true, decide_eq_true_eq] at hb
      omega
    · split
      · split
        · rename_i hc
          injection hc with hc1 hcr
          injection hcr with hc2 hc3
          subst hc1
          subst hc2
          subst hc3
          have e1 : n / 4096 = n / 64 / 64 := (Nat.div_div_eq_div_mul n 64 64).symm
          rw [if_pos (by
            simp only [Bool.and_eq_true, decide_eq_true_eq, Bool.not_eq_true',
              Bool.and_eq_false_iff, decide_eq_false_iff_not]
            omega)]
          have he : (0xE0 + n / 4096 - 0xE0) * 4096 +
              (0x80 + n / 64 % 64 - 0x80) * 64 + (0x80 + n % 64 - 0x80) = n :=
            by omega
          rw [he]
        · rename_i hc
          exact absurd hc (by simp)
      · rename_i hb
        simp only [Bool.and_eq_true, decide_eq_true_eq] at hb
        omega

theorem utf8DecodeLoop_quad (fuel n : Nat) (rest : List Nat)
    (h1 : 0x10000 ≤ n) (h2 : n < 0x110000) :
    utf8DecodeLoop (fuel + 1)
      ((0xF0 + n / 262144) :: (0x80 + n / 4096 % 64) ::
        (0x80 + n / 64 % 64) :: (0x80 + n % 64) :: rest) =
      Char.ofNat n :: utf8DecodeLoop fuel rest := by
  conv_lhs => unfold utf8DecodeLoop
  split
  · omega
  · split
    · rename_i hb
      simp only [Bool.and_eq_true, decide_eq_true_eq] at hb
      omega
    · split
      · rename_i hb
        simp only [Bool.and_eq_true, decide_eq_true_eq] at hb
        omega
      · split
        · split
          · rename_i hc
            injection hc with hc1 hcr
            injection hcr with hc2 hcr2
            injection hcr2 with hc3 hc4
            subst hc1
            subst hc2
            subst hc3
            subst hc4
            have e1 : n / 4096 = n / 64 / 64 :=
              (Nat.div_div_eq_div_mul n 64 64).symm
            have e2 : n / 262144 = n / 4096 / 64 :=
              (Nat.div_div_eq_div_mul n 4096 64).symm
            rw [if_pos (by
              simp only [Bool.and_eq_true, decide_eq_true_eq]
              omega)]
            have he : (0xF0 + n / 262144 - 0xF0) * 262144 +
                (0x80 + n / 4096 % 64 - 0x80) * 4096 +
                (0x80 + n / 64 % 64 - 0x80) * 64 + (0x80 + n % 64 - 0x80) =
                n := by omega
            rw [he]
          · rename_i hc
            exact absurd hc (by simp)
        · rename_i hb
          simp only [Bool.and_eq_true, decide_eq_true_eq] at hb
          omega

theorem utf8DecodeLoop_char (c : Char) (fuel : Nat) (rest : List Nat) :
    utf8DecodeLoop (fuel + 1) (utf8Char c ++ rest) =
      c :: utf8DecodeLoop fuel rest := by
  have hv := charValid c
  unfold utf8Char
  by_cases h1 : c.toNat < 0x80
  · rw [if_pos h1]
    simp only [List.cons_append, List.nil_append]
    rw [utf8DecodeLoop_single fuel c.toNat rest h1, Char.ofNat_toNat]
  · by_cases h2 : c.toNat < 0x800
    · rw [if_neg h1, if_pos h2]
      simp only [List.cons_append, List.nil_append]
      rw [utf8DecodeLoop_double fuel c.toNat rest (by omega) h2,
        Char.ofNat_toNat]
    · by_cases h3 : c.toNat < 0x10000
      · rw [if_neg h1, if_neg h2, if_pos h3]
        simp only [List.cons_append, List.nil_append]
        rw [utf8DecodeLoop_triple fuel c.toNat rest (by omega) h3 (by omega),
          Char.ofNat_toNat]
      · rw [if_neg h1, if_neg h2, if_neg h3]
        simp only [List.cons_append, List.nil_append]
        rw [utf8DecodeLoop_quad fuel c.toNat rest (by omega) (by omega),
          Char.ofNat_toNat]

theorem utf8Char_length_pos (c : Char) : 0 < (utf8Char c).length := by
  unfold utf8Char
  by_cases h1 : c.toNat < 128
  · simp [h1]
  · by_cases h2 : c.toNat < 2048
    · simp [h1, h2]
    · by_cases h3 : c.toNat < 65536
      · simp [h1, h2, h3]
      · simp [h1, h2, h3]

theorem length_le_flatMap_utf8 (cs : List Char) :
    cs.length ≤ (cs.flatMap utf8Char).length := by
  induction cs with
  | nil => simp
  | cons c cs ih =>
    simp only [List.flatMap_cons, List.length_append, List.length_cons]
    have := utf8Char_length_pos c
    omega

theorem utf8DecodeLoop_encode (cs : List Char) : ∀ fuel, cs.length ≤ fuel →
    utf8DecodeLoop fuel (cs.flatMap utf8Char) = cs := by
  induction cs with
  | nil => intro fuel _; exact utf8DecodeLoop_nil fuel
  | cons c cs ih =>
    intro fuel h
    match fuel with
    | 0 => exact absurd h (by simp)
    | f + 1 =>
      simp only [List.flatMap_cons]
      rw [utf8DecodeLoop_char c f _]
      rw [ih f (by simpa using h)]

theorem utf8_roundtrip (s : String) :
    String.mk (utf8DecodeReplace (utf8Encode s)) = s := by
  unfold utf8DecodeReplace utf8Encode
  rw [utf8DecodeLoop_encode s.data _ (length_le_flatMap_utf8 s.data)]

/-! ### Form codec round trip machinery -/

theorem splitOnChar_no_sep (sep : Char) (xs : List Char) (h : sep ∉ xs) :
    splitOnChar sep xs = [xs] := by
  induction xs with
  | nil => rfl
  | cons c rest ih =>
    have hc : ¬ c = sep := fun he => h (he ▸ List.mem_cons_self c rest)
    have hih := ih (fun hm => h (List.mem_cons_of_mem c hm))
    conv_lhs => unfold splitOnChar
    simp only [hih, if_neg hc]

theorem splitOnChar_append_sep (sep : Char) (xs ys : List Char)
    (h : sep ∉ xs) :
    splitOnChar sep (xs ++ sep :: ys) = xs :: splitOnChar sep ys := by
  induction xs with
  | nil =>
    simp only [List.nil_append]
    conv_lhs => unfold splitOnChar
    simp
  | cons c rest ih =>
    have hc : ¬ c = sep := fun he => h (he ▸ List.mem_cons_self c rest)
    have hih := ih (fun hm => h (List.mem_cons_of_mem c hm))
    simp only [List.cons_append]
    conv_lhs => unfold splitOnChar
    simp only [hih, if_neg hc]

theorem splitOnChar_intercalate (sep : Char) (parts : List (List Char))
    (hne : parts ≠ []) (h : ∀ p ∈ parts, sep ∉ p) :
    splitOnChar sep (intercalateChar sep parts) = parts := by
  induction parts with
  | nil => exact absurd rfl hne
  | cons p rest ih =>
    cases rest with
    | nil =>
      unfold intercalateChar
      exact splitOnChar_no_sep sep p (h p (List.mem_cons_self p []))
    | cons q qs =>
      unfold intercalateChar
      rw [splitOnChar_append_sep sep p _ (h p (List.mem_cons_self p _))]
      rw [ih (by simp) (fun r hr => h r (List.mem_cons_of_mem p hr))]

theorem charToNat_ofNat_small (n : Nat) (h : n < 55296) :
    (Char.ofNat n).toNat = n := by
  unfold Char.ofNat
  rw [dif_pos (by unfold Nat.isValidChar; omega)]
  unfold Char.ofNatAux Char.toNat
  simp [UInt32.toNat, BitVec.toNat_ofNatLt]

/-- The characters contributed by one byte of the percent-encoding table;
the empty list stands for the missing byte 255 entry. -/
def encCharsOfByte (b : Nat) : List Char :=
  match formUrlEncoding b with
  | some s => s.data
  | none => []

theorem encCharsOfByte_unreserved (b : Nat) (h : isUnreservedByte b = true) :
    encCharsOfByte b = [Char.ofNat b] := by
  unfold encCharsOfByte formUrlEncoding
  rw [if_pos h]

theorem encCharsOfByte_escaped (b : Nat) (h : ¬ isUnreservedByte b = true)
    (hb : b < 255) :
    encCharsOfByte b = ['%', hexDigitUpper (b / 16), hexDigitUpper (b % 16)] := by
  unfold encCharsOfByte formUrlEncoding
  rw [if_neg h, if_pos hb]
  rfl

theorem formUrlEncoding_eq_mk (b : Nat) (hb : b < 255) :
    formUrlEncoding b = some (String.mk (encCharsOfByte b)) := by
  unfold encCharsOfByte formUrlEncoding
  by_cases h : isUnreservedByte b = true
  · rw [if_pos h]
  · rw [if_neg h, if_pos hb]

theorem unreserved_lt_128 (b : Nat) (h : isUnreservedByte b = true) :
    b < 128 := by
  unfold isUnreservedByte at h
  simp only [Bool.or_eq_true, Bool.and_eq_true, decide_eq_true_eq,
    beq_iff_eq] at h
  omega

theorem hexVal_hexDigitUpper (x : Nat) (hx : x < 16) :
    hexVal (hexDigitUpper x) = some x := by
  have hfin : ∀ y : Fin 16, hexVal (hexDigitUpper y.val) = some y.val := by
    decide
  exact hfin ⟨x, hx⟩

theorem foldl_append_data (l : List String) (a : String) :
    (l.foldl (fun r s => r ++ s) a).data =
      a.data ++ (l.map String.data).flatten := by
  induction l generalizing a with
  | nil => simp
  | cons s rest ih =>
    simp only [List.foldl_cons, List.map_cons, List.flatten_cons]
    rw [ih (a ++ s), String.data_append]
    simp

theorem join_data (l : List String) :
    (String.join l).data = (l.map String.data).flatten := by
  unfold String.join
  rw [foldl_append_data]
  rfl

theorem unquoteBytes_not_pct (c : Char) (h : ¬ c = '%') (rest : List Char) :
    unquoteBytes (c :: rest) = utf8Char c ++ unquoteBytes rest := by
  match rest with
  | [] => simp [unquoteBytes, h]
  | [a] => simp [unquoteBytes, h]
  | a :: b :: r => simp [unquoteBytes, h]

theorem unquoteBytes_pct (h1 h2 : Char) (x y : Nat) (rest : List Char)
    (hx : hexVal h1 = some x) (hy : hexVal h2 = some y) :
    unquoteBytes ('%' :: h1 :: h2 :: rest) =
      (16 * x + y) :: unquoteBytes rest := by
  conv_lhs => unfold unquoteBytes
  simp [hx, hy]

theorem utf8Char_ofNat_small (b : Nat) (h : b < 128) :
    utf8Char (Char.ofNat b) = [b] := by
  have ht := charToNat_ofNat_small b (by omega)
  simp [utf8Char, ht, h]

theorem unquoteBytes_encode (bs : List Nat) (h : ∀ b ∈ bs, b < 255) :
    unquoteBytes (bs.flatMap encCharsOfByte) = bs := by
  induction bs with
  | nil => rfl
  | cons b rest ih =>
    have hb : b < 255 := h b (List.mem_cons_self b rest)
    have hr := ih (fun x hx => h x (List.mem_cons_of_mem b hx))
    simp only [List.flatMap_cons]
    by_cases hu : isUnreservedByte b = true
    · have hlt : b < 128 := unreserved_lt_128 b hu
      have hne : ¬ (Char.ofNat b = '%') := by
        intro he
        have h37 : (Char.ofNat b).toNat = 37 := by rw [he]; rfl
        rw [charToNat_ofNat_small b (by omega)] at h37
        subst h37
        exact absurd hu (by decide)
      rw [encCharsOfByte_unreserved b hu]
      simp only [List.cons_append, List.nil_append]
      rw [unquoteBytes_not_pct _ hne, utf8Char_ofNat_small b hlt, hr]
      rfl
    · rw [encCharsOfByte_escaped b hu hb]
      simp only [List.cons_append, List.nil_append]
      rw [unquoteBytes_pct _ _ _ _ _ (hexVal_hexDigitUpper _ (by omega))
        (hexVal_hexDigitUpper _ (by omega))]
      rw [hr]
      have he : 16 * (b / 16) + b % 16 = b := by omega
      rw [he]

theorem mapM_formUrlEncoding (bs : List Nat) (h : ∀ b ∈ bs, b < 255) :
    bs.mapM formUrlEncoding =
      some (bs.map (fun b => String.mk (encCharsOfByte b))) := by
  induction bs with
  | nil => rfl
  | cons b rest ih =>
    rw [List.mapM_cons]
    rw [formUrlEncoding_eq_mk b (h b (List.mem_cons_self b rest))]
    rw [ih (fun x hx => h x (List.mem_cons_of_mem b hx))]
    rfl

theorem encodeTableBytes_eq (bs : List Nat) (h : ∀ b ∈ bs, b < 255) :
    encodeTableBytes formUrlEncoding bs =
      some (String.mk (bs.flatMap encCharsOfByte)) := by
  unfold encodeTableBytes
  rw [mapM_formUrlEncoding bs h]
  rw [Option.map_some']
  congr 1
  apply stringDataInj
  rw [join_data]
  simp only [List.map_map]
  rw [List.flatMap_def]
  congr 1

theorem utf8Char_lt_255 (c : Char) : ∀ b ∈ utf8Char c, b < 255 := by
  intro b hb
  unfold utf8Char at hb
  by_cases h1 : c.toNat < 128
  · simp only [if_pos h1] at hb
    simp at hb
    omega
  · by_cases h2 : c.toNat < 2048
    · simp only [if_neg h1, if_pos h2] at hb
      simp at hb
      rcases hb with h | h <;> omega
    · by_cases h3 : c.toNat < 65536
      · simp only [if_neg h1, if_neg h2, if_pos h3] at hb
        simp at hb
        rcases hb with h | h | h <;> omega
      · simp only [if_neg h1, if_neg h2, if_neg h3] at hb
        have hv := charValid c
        simp at hb
        rcases hb with h | h | h | h <;> omega

theorem utf8Encode_lt_255 (s : String) : ∀ b ∈ utf8Encode s, b < 255 := by
  intro b hb
  unfold utf8Encode at hb
  rcases List.mem_flatMap.mp hb with ⟨c, _, hbc⟩
  exact utf8Char_lt_255 c b hbc

/-- The percent-encoded form of a string under the default options. -/
def encStr (s : String) : String :=
  String.mk ((utf8Encode s).flatMap encCharsOfByte)

theorem chrMap_false : chrMap false = formUrlEncoding := by
  funext b
  unfold chrMap
  rw [if_neg]
  exact Bool.false_ne_true

theorem formEncodeDatum_str (s : String) :
    formEncodeDatum defaultFormOptions (.pstr s) = some (encStr s) := by
  unfold formEncodeDatum
  have hd : defaultFormOptions.spaceAsPlus = false := rfl
  rw [hd, chrMap_false]
  exact encodeTableBytes_eq _ (utf8Encode_lt_255 s)

theorem dequote_encStr (s : String) : dequoteStr false (encStr s).data = s := by
  unfold dequoteStr encStr
  simp only [Bool.false_eq_true, if_false]
  rw [unquoteBytes_encode _ (utf8Encode_lt_255 s)]
  exact utf8_roundtrip s

set_option maxRecDepth 8000 in
theorem encCharsOfByte_props (b : Nat) (hb : b < 255) :
    ∀ c ∈ encCharsOfByte b, ¬ c = '&' ∧ ¬ c = '=' ∧ c.toNat < 128 := by
  have hfin : ∀ y : Fin 255, ∀ c ∈ encCharsOfByte y.val,
      ¬ c = '&' ∧ ¬ c = '=' ∧ c.toNat < 128 := by decide
  exact hfin ⟨b, hb⟩

theorem encStr_props (s : String) :
    ∀ c ∈ (encStr s).data, ¬ c = '&' ∧ ¬ c = '=' ∧ c.toNat < 128 := by
  intro c hc
  rcases List.mem_flatMap.mp hc with ⟨b, hb, hcb⟩
  exact encCharsOfByte_props b (utf8Encode_lt_255 s b hb) c hcb

theorem asciiStrToBytes_of_ascii (s : String)
    (h : ∀ c ∈ s.data, c.toNat < 128) :
    asciiStrToBytes s = some (asciiCodes s) := by
  unfold asciiStrToBytes
  rw [if_pos]
  rw [List.all_eq_true]
  intro c hc
  exact decide_eq_true (h c hc)

theorem bytesToAsciiStr_asciiCodes (s : String)
    (h : ∀ c ∈ s.data, c.toNat < 128) :
    bytesToAsciiStr (asciiCodes s) = some s := by
  unfold bytesToAsciiStr asciiCodes
  rw [if_pos]
  · congr 1
    apply stringDataInj
    show (s.data.map Char.toNat).map Char.ofNat = s.data
    rw [List.map_map]
    conv_rhs => rw [← List.map_id s.data]
    apply List.map_congr_left
    intro c _
    exact Char.ofNat_toNat c
  · rw [List.all_eq_true]
    intro b hb
    rcases List.mem_map.mp hb with ⟨c, hc, hbc⟩
    subst hbc
    exact decide_eq_true (h c hc)

theorem intercalateStr_data (c : Char) (sep : String) (hs : sep.data = [c])
    (parts : List String) :
    (intercalateStr sep parts).data =
      intercalateChar c (parts.map String.data) := by
  induction parts with
  | nil => rfl
  | cons x xs ih =>
    cases xs with
    | nil => rfl
    | cons y ys =>
      show (x ++ sep ++ intercalateStr sep (y :: ys)).data = _
      rw [String.data_append, String.data_append, hs, ih]
      simp only [List.map_cons, intercalateChar, List.append_assoc]
      rfl

theorem mem_intercalateChar (sep : Char) (parts : List (List Char)) (c : Char)
    (hc : c ∈ intercalateChar sep parts) :
    c = sep ∨ ∃ p ∈ parts, c ∈ p := by
  induction parts with
  | nil => cases hc
  | cons g gs ih =>
    cases gs with
    | nil =>
      right
      exact ⟨g, List.mem_cons_self g [], hc⟩
    | cons g2 gs2 =>
      rcases List.mem_append.mp hc with h1 | h2
      · right
        exact ⟨g, List.mem_cons_self g (g2 :: gs2), h1⟩
      · rcases List.mem_cons.mp h2 with h3 | h4
        · left
          exact h3
        · rcases ih h4 with h5 | ⟨p, hp, hcp⟩
          · left
            exact h5
          · right
            exact ⟨p, List.mem_cons_of_mem g hp, hcp⟩

theorem formPart_data (k v : String) :
    (encStr k ++ "=" ++ encStr v).data =
      (encStr k).data ++ '=' :: (encStr v).data := by
  rw [String.data_append, String.data_append, List.append_assoc]
  rfl

theorem formPart_chars (k v : String) :
    ∀ c ∈ (encStr k ++ "=" ++ encStr v).data, c.toNat < 128 := by
  intro c hc
  rw [formPart_data] at hc
  rcases List.mem_append.mp hc with h1 | h2
  · exact (encStr_props k c h1).2.2
  · rcases List.mem_cons.mp h2 with h3 | h4
    · subst h3
      decide
    · exact (encStr_props v c h4).2.2

theorem formPart_no_amp (k v : String) :
    '\x26' ∉ (encStr k ++ "=" ++ encStr v).data := by
  intro hc
  rw [formPart_data] at hc
  rcases List.mem_append.mp hc with h1 | h2
  · exact (encStr_props k _ h1).1 rfl
  · rcases List.mem_cons.mp h2 with h3 | h4
    · exact absurd h3 (by decide)
    · exact (encStr_props v _ h4).1 rfl

theorem formPart_not_empty (k v : String) :
    ((encStr k ++ "=" ++ encStr v).data).isEmpty = false := by
  rw [formPart_data]
  cases h : (encStr k).data <;> simp

theorem partitionEq_formPart (k v : String) :
    partitionEqChars (encStr k ++ "=" ++ encStr v).data =
      ((encStr k).data, true, (encStr v).data) := by
  unfold partitionEqChars
  rw [formPart_data]
  rw [splitOnChar_append_sep '=' _ _
    (fun hm => ((encStr_props k '=' hm).2.1) rfl)]
  rw [splitOnChar_no_sep '=' _
    (fun hm => ((encStr_props v '=' hm).2.1) rfl)]
  rfl

theorem formEncodePair_str (k v : String) :
    formEncodePair defaultFormOptions (.pstr k, .pstr v) =
      some (encStr k ++ "=" ++ encStr v) := by
  unfold formEncodePair
  show (formEncodeDatum defaultFormOptions (.pstr k)).bind _ = _
  rw [formEncodeDatum_str, formEncodeDatum_str]
  rfl

theorem mapM_formEncodePair (kvs : List (String × String)) :
    (kvs.map fun kv => (PyObj.pstr kv.1, PyObj.pstr kv.2)).mapM
        (formEncodePair defaultFormOptions) =
      some (kvs.map fun kv => encStr kv.1 ++ "=" ++ encStr kv.2) := by
  induction kvs with
  | nil => rfl
  | cons kv rest ih =>
    rw [List.map_cons, List.mapM_cons, formEncodePair_str, ih]
    rfl

theorem formToBytes_strdict (kvs : List (String × String)) :
    formToBytes defaultFormOptions
        (.pdict (kvs.map fun kv => (.pstr kv.1, .pstr kv.2))) =
      some (formContentType,
        asciiCodes (intercalateStr "&"
          (kvs.map fun kv => encStr kv.1 ++ "=" ++ encStr kv.2))) := by
  have hconv : convertToTupleSequence defaultFormOptions
      (.pdict (kvs.map fun kv => (.pstr kv.1, .pstr kv.2))) =
      some (kvs.map fun kv => (PyObj.pstr kv.1, PyObj.pstr kv.2)) := rfl
  have hascii : ∀ c ∈ (intercalateStr "&"
      (kvs.map fun kv => encStr kv.1 ++ "=" ++ encStr kv.2)).data,
      c.toNat < 128 := by
    intro c hc
    rw [intercalateStr_data '\x26' "&" rfl] at hc
    rcases mem_intercalateChar _ _ _ hc with h1 | ⟨p, hp, hcp⟩
    · subst h1
      decide
    · rcases List.mem_map.mp hp with ⟨q, hq, hpq⟩
      rcases List.mem_map.mp hq with ⟨kv, _, hqkv⟩
      subst hqkv
      subst hpq
      exact formPart_chars kv.1 kv.2 c hcp
  unfold formToBytes
  rw [hconv]
  simp only []
  rw [mapM_formEncodePair]
  rw [Option.some_bind]
  rw [asciiStrToBytes_of_ascii _ hascii]
  rfl

theorem filterMap_decode (kvs : List (String × String)) :
    ((kvs.map fun kv => (encStr kv.1 ++ "=" ++ encStr kv.2).data).filterMap
      fun part =>
        if part.isEmpty then none
        else
          let trio := partitionEqChars part
          let dname := dequoteStr false trio.1
          if trio.2.1 then some (dname, dequoteStr false trio.2.2)
          else some (dname, "")) = kvs := by
  induction kvs with
  | nil => rfl
  | cons kv rest ih =>
    obtain ⟨k, v⟩ := kv
    rw [List.map_cons]
    simp only [List.filterMap_cons, formPart_not_empty, Bool.false_eq_true,
      if_false, partitionEq_formPart, dequote_encStr, if_true, ih]

theorem foldl_pyDictInsert_fresh (ps : List (String × String)) :
    ∀ acc : List (String × String),
      (∀ p ∈ ps, ∀ q ∈ acc, ¬ q.1 = p.1) → (ps.map Prod.fst).Nodup →
      ps.foldl (fun acc kv => pyDictInsert acc kv.1 kv.2) acc = acc ++ ps := by
  induction ps with
  | nil =>
    intro acc _ _
    simp
  | cons kv rest ih =>
    intro acc hfresh hnodup
    obtain ⟨k, v⟩ := kv
    rw [List.foldl_cons]
    have hins : pyDictInsert acc k v = acc ++ [(k, v)] := by
      unfold pyDictInsert
      rw [if_neg]
      intro hany
      rcases List.any_eq_true.mp hany with ⟨q, hq, hqk⟩
      exact hfresh (k, v) (List.mem_cons_self (k, v) rest) q hq
        (by simpa using hqk)
    rw [hins]
    rw [List.map_cons] at hnodup
    have hpair := List.nodup_cons.mp hnodup
    rw [ih (acc ++ [(k, v)]) ?fr hpair.2]
    · rw [List.append_assoc]
      rfl
    case fr =>
      intro p hp q hq
      rcases List.mem_append.mp hq with h1 | h2
      · exact hfresh p (List.mem_cons_of_mem (k, v) hp) q h1
      · have hqe : q = (k, v) := by simpa using h2
        subst hqe
        intro hkp
        exact hpair.1 (hkp ▸ List.mem_map.mpr ⟨p, hp, rfl⟩)

theorem pyDictOf_nodup (kvs : List (String × String))
    (h : (kvs.map Prod.fst).Nodup) : pyDictOf kvs = kvs := by
  unfold pyDictOf
  rw [foldl_pyDictInsert_fresh kvs [] (by intro p hp q hq; cases hq) h]
  rfl

theorem formFromBytesPairs_encoded (kvs : List (String × String)) :
    formFromBytesPairs defaultFormOptions
      (asciiCodes (intercalateStr "&"
        (kvs.map fun kv => encStr kv.1 ++ "=" ++ encStr kv.2))) =
      some (pyDictOf kvs) := by
  have hascii : ∀ c ∈ (intercalateStr "&"
      (kvs.map fun kv => encStr kv.1 ++ "=" ++ encStr kv.2)).data,
      c.toNat < 128 := by
    intro c hc
    rw [intercalateStr_data '\x26' "&" rfl] at hc
    rcases mem_intercalateChar _ _ _ hc with h1 | ⟨p, hp, hcp⟩
    · subst h1
      decide
    · rcases List.mem_map.mp hp with ⟨q, hq, hpq⟩
      rcases List.mem_map.mp hq with ⟨kv, _, hqkv⟩
      subst hqkv
      subst hpq
      exact formPart_chars kv.1 kv.2 c hcp
  cases kvs with
  | nil => rfl
  | cons kv0 rest =>
    unfold formFromBytesPairs
    rw [bytesToAsciiStr_asciiCodes _ hascii]
    rw [Option.map_some']
    congr 1
    show pyDictOf
      (List.filterMap
        (fun part =>
          if part.isEmpty = true then none
          else
            let trio := partitionEqChars part
            let dname := dequoteStr false trio.1
            if trio.2.1 = true then some (dname, dequoteStr false trio.2.2)
            else some (dname, ""))
        (splitOnChar '\x26'
          (intercalateStr "&"
              (List.map (fun kv => encStr kv.1 ++ "=" ++ encStr kv.2)
                (kv0 :: rest))).data)) =
      pyDictOf (kv0 :: rest)
    rw [intercalateStr_data '\x26' "&" rfl]
    rw [splitOnChar_intercalate '\x26' _ (by simp) ?nosep]
    · rw [List.map_map]
      show pyDictOf
        ((List.map (fun kv => (encStr kv.1 ++ "=" ++ encStr kv.2).data)
            (kv0 :: rest)).filterMap
          (fun part =>
            if part.isEmpty = true then none
            else
              let trio := partitionEqChars part
              let dname := dequoteStr false trio.1
              if trio.2.1 = true then some (dname, dequoteStr false trio.2.2)
              else some (dname, ""))) =
        pyDictOf (kv0 :: rest)
      rw [filterMap_decode]
    case nosep =>
      intro p hp
      rcases List.mem_map.mp hp with ⟨q, hq, hpq⟩
      rcases List.mem_map.mp hq with ⟨kv, _, hqkv⟩
      subst hqkv
      subst hpq
      exact formPart_no_amp kv.1 kv.2

theorem form_roundtrip (kvs : List (String × String))
    (h : (kvs.map Prod.fst).Nodup) :
    (formToBytes defaultFormOptions
        (.pdict (kvs.map fun kv => (.pstr kv.1, .pstr kv.2)))).bind
      (fun tb => formFromBytes defaultFormOptions tb.2) =
      some (.pdict (kvs.map fun kv => (.pstr kv.1, .pstr kv.2))) := by
  rw [formToBytes_strdict, Option.some_bind]
  unfold formFromBytes
  rw [formFromBytesPairs_encoded, pyDictOf_nodup kvs h, Option.map_some']

theorem takeExact_append (xs extra : List Nat) :
    takeExact xs.length (xs ++ extra) = some (xs, extra) := by
  unfold takeExact
  rw [if_pos (by simp)]
  rw [List.take_left, List.drop_left]

theorem beVal_be16 (m : Nat) (h : m < 65536) : beVal (be16 m) = m := by
  unfold beVal be16
  simp only [List.foldl_cons, List.foldl_nil]
  omega

theorem beVal_be32 (m : Nat) (h : m < 4294967296) : beVal (be32 m) = m := by
  unfold beVal be32
  simp only [List.foldl_cons, List.foldl_nil]
  omega

theorem beVal_be64 (m : Nat) (h : m < 18446744073709551616) :
    beVal (be64 m) = m := by
  unfold beVal be64
  simp only [List.foldl_cons, List.foldl_nil]
  omega

theorem takeExact_be16 (m : Nat) (extra : List Nat) :
    takeExact 2 (be16 m ++ extra) = some (be16 m, extra) :=
  takeExact_append (be16 m) extra

theorem takeExact_be32 (m : Nat) (extra : List Nat) :
    takeExact 4 (be32 m ++ extra) = some (be32 m, extra) :=
  takeExact_append (be32 m) extra

theorem takeExact_be64 (m : Nat) (extra : List Nat) :
    takeExact 8 (be64 m ++ extra) = some (be64 m, extra) :=
  takeExact_append (be64 m) extra

set_option maxRecDepth 16000 in
theorem msgUnpack_packInt (fuel : Nat) (n : Int) (bs : List Nat)
    (h : packInt n = some bs) (extra : List Nat) :
    msgUnpack (fuel+1) (bs ++ extra) = some (.pint n, extra) := by
  unfold packInt at h
  split at h
  case isTrue h0 =>
    dsimp only at h
    repeat' split at h
    · injection h with hbs
      subst hbs
      simp only [List.cons_append, List.nil_append]
      unfold msgUnpack
      rw [if_pos (by omega)]
      rw [Int.toNat_of_nonneg h0]
    · injection h with hbs
      subst hbs
      simp only [List.cons_append, List.nil_append]
      simp [msgUnpack]
      omega
    · injection h with hbs
      subst hbs
      rw [List.cons_append]
      simp [msgUnpack]
      refine ⟨be16 n.toNat, takeExact_be16 _ extra, ?_⟩
      rw [beVal_be16 _ (by omega)]
      omega
    · injection h with hbs
      subst hbs
      rw [List.cons_append]
      simp [msgUnpack]
      refine ⟨be32 n.toNat, takeExact_be32 _ extra, ?_⟩
      rw [beVal_be32 _ (by omega)]
      omega
    · injection h with hbs
      subst hbs
      rw [List.cons_append]
      simp [msgUnpack]
      refine ⟨be64 n.toNat, takeExact_be64 _ extra, ?_⟩
      rw [beVal_be64 _ (by omega)]
      omega
    · exact Option.noConfusion h
  case isFalse h0 =>
    dsimp only at h
    repeat' split at h
    · injection h with hbs
      subst hbs
      simp only [List.cons_append, List.nil_append]
      unfold msgUnpack
      rw [if_neg (by omega), if_pos (by omega)]
      have he : ((256 - (-n).toNat : Nat) : Int) - 256 = n := by omega
      rw [he]
    · injection h with hbs
      subst hbs
      simp only [List.cons_append, List.nil_append]
      simp [msgUnpack]
      rw [if_pos (by omega)]
      omega
    · injection h with hbs
      subst hbs
      rw [List.cons_append]
      simp [msgUnpack]
      refine ⟨be16 (65536 - (-n).toNat), takeExact_be16 _ extra, ?_⟩
      rw [beVal_be16 _ (by omega)]
      rw [if_pos (by omega)]
      omega
    · injection h with hbs
      subst hbs
      rw [List.cons_append]
      simp [msgUnpack]
      refine ⟨be32 (4294967296 - (-n).toNat), takeExact_be32 _ extra, ?_⟩
      rw [beVal_be32 _ (by omega)]
      rw [if_pos (by omega)]
      omega
    · injection h with hbs
      subst hbs
      rw [List.cons_append]
      simp [msgUnpack]
      refine ⟨be64 (18446744073709551616 - (-n).toNat),
        takeExact_be64 _ extra, ?_⟩
      rw [beVal_be64 _ (by omega)]
      rw [if_pos (by omega)]
      omega
    · exact Option.noConfusion h

set_option maxRecDepth 16000 in
theorem msgUnpack_packStr (fuel : Nat) (s : String) (hdr : List Nat)
    (h : packStrHeader (utf8Encode s).length = some hdr) (extra : List Nat) :
    msgUnpack (fuel+1) ((hdr ++ utf8Encode s) ++ extra) =
      some (.pstr s, extra) := by
  unfold packStrHeader at h
  repeat' split at h
  · injection h with hbs
    subst hbs
    simp only [List.cons_append, List.nil_append]
    unfold msgUnpack
    rw [if_neg (by omega), if_neg (by omega), if_neg (by omega),
      if_neg (by omega), if_pos (by omega)]
    have he : 160 + (utf8Encode s).length - 160 = (utf8Encode s).length := by
      omega
    rw [he, takeExact_append, Option.map_some', utf8_roundtrip]
  · injection h with hbs
    subst hbs
    simp only [List.cons_append, List.nil_append]
    simp [msgUnpack]
    exact ⟨utf8Encode s, takeExact_append _ extra, by rw [utf8_roundtrip]⟩
  · injection h with hbs
    subst hbs
    simp only [List.cons_append, List.append_assoc]
    simp [msgUnpack]
    rw [takeExact_be16, Option.some_bind]
    rw [beVal_be16 _ (by omega)]
    rw [takeExact_append, Option.map_some', utf8_roundtrip]
  · injection h with hbs
    subst hbs
    simp only [List.cons_append, List.append_assoc]
    simp [msgUnpack]
    rw [takeExact_be32, Option.some_bind]
    rw [beVal_be32 _ (by omega)]
    rw [takeExact_append, Option.map_some', utf8_roundtrip]
  · exact Option.noConfusion h

set_option maxRecDepth 16000 in
theorem msgUnpack_packBin (fuel : Nat) (bv : List Nat) (hdr : List Nat)
    (h : packBinHeader bv.length = some hdr) (extra : List Nat) :
    msgUnpack (fuel+1) ((hdr ++ bv) ++ extra) = some (.pbytes bv, extra) := by
  unfold packBinHeader at h
  repeat' split at h
  · injection h with hbs
    subst hbs
    simp only [List.cons_append, List.nil_append]
    simp [msgUnpack]
    exact takeExact_append bv extra
  · injection h with hbs
    subst hbs
    simp only [List.cons_append, List.append_assoc]
    simp [msgUnpack]
    rw [takeExact_be16, Option.some_bind]
    rw [beVal_be16 _ (by omega)]
    rw [takeExact_append, Option.map_some']
  · injection h with hbs
    subst hbs
    simp only [List.cons_append, List.append_assoc]
    simp [msgUnpack]
    rw [takeExact_be32, Option.some_bind]
    rw [beVal_be32 _ (by omega)]
    rw [takeExact_append, Option.map_some']
  · exact Option.noConfusion h

set_option maxRecDepth 16000 in
theorem msgUnpack_packArray (fuel n : Nat) (hdr : List Nat)
    (h : packArrayHeader n = some hdr) (body : List Nat) :
    msgUnpack (fuel+1) (hdr ++ body) =
      (msgUnpackItems fuel n body).map fun ir => (.plist ir.1, ir.2) := by
  unfold packArrayHeader at h
  repeat' split at h
  · injection h with hbs
    subst hbs
    simp only [List.cons_append, List.nil_append]
    unfold msgUnpack
    rw [if_neg (by omega), if_neg (by omega), if_neg (by omega),
      if_pos (by omega)]
    have he : 144 + n - 144 = n := by omega
    rw [he]
  · injection h with hbs
    subst hbs
    simp only [List.cons_append, List.append_assoc]
    simp [msgUnpack]
    rw [takeExact_be16, Option.some_bind]
    rw [beVal_be16 _ (by omega)]
  · injection h with hbs
    subst hbs
    simp only [List.cons_append, List.append_assoc]
    simp [msgUnpack]
    rw [takeExact_be32, Option.some_bind]
    rw [beVal_be32 _ (by omega)]
  · exact Option.noConfusion h

set_option maxRecDepth 16000 in
theorem msgUnpack_packMap (fuel n : Nat) (hdr : List Nat)
    (h : packMapHeader n = some hdr) (body : List Nat) :
    msgUnpack (fuel+1) (hdr ++ body) =
      (msgUnpackPairs fuel n body).map fun pr => (.pdict pr.1, pr.2) := by
  unfold packMapHeader at h
  repeat' split at h
  · injection h with hbs
    subst hbs
    simp only [List.cons_append, List.nil_append]
    unfold msgUnpack
    rw [if_neg (by omega), if_neg (by omega), if_pos (by omega)]
    have he : 128 + n - 128 = n := by omega
    rw [he]
  · injection h with hbs
    subst hbs
    simp only [List.cons_append, List.append_assoc]
    simp [msgUnpack]
    rw [takeExact_be16, Option.some_bind]
    rw [beVal_be16 _ (by omega)]
  · injection h with hbs
    subst hbs
    simp only [List.cons_append, List.append_assoc]
    simp [msgUnpack]
    rw [takeExact_be32, Option.some_bind]
    rw [beVal_be32 _ (by omega)]
  · exact Option.noConfusion h

theorem msgUnpackItems_zero (fuel : Nat) (bs : List Nat) :
    msgUnpackItems fuel 0 bs = some ([], bs) := by
  cases fuel <;> rfl

theorem msgUnpackPairs_zero (fuel : Nat) (bs : List Nat) :
    msgUnpackPairs fuel 0 bs = some ([], bs) := by
  cases fuel <;> rfl

mutual

theorem unpack_pack (v : PyObj) (bs : List Nat)
    (h : umsgpackPackb v = some bs) (fuel : Nat) (hf : msgFuel v ≤ fuel)
    (extra : List Nat) :
    msgUnpack fuel (bs ++ extra) = some (v, extra) := by
  obtain ⟨f, rfl⟩ : ∃ f, fuel = f + 1 := by
    cases v <;> (simp [msgFuel] at hf; exact ⟨fuel - 1, by omega⟩)
  cases v with
  | pnone =>
    injection h with hbs
    subst hbs
    simp [msgUnpack]
  | pbool b =>
    cases b with
    | false =>
      injection h with hbs
      subst hbs
      simp [msgUnpack]
    | true =>
      injection h with hbs
      subst hbs
      simp [msgUnpack]
  | pint n => exact msgUnpack_packInt f n bs h extra
  | pfloat fl =>
    unfold umsgpackPackb at h
    split at h
    · injection h with hbs
      subst hbs
      rw [List.cons_append]
      simp [msgUnpack]
      refine ⟨be64 fl, takeExact_be64 _ extra, ?_⟩
      rw [beVal_be64 fl (by omega)]
    · exact Option.noConfusion h
  | puuid u => exact Option.noConfusion h
  | pstr s =>
    rcases Option.map_eq_some'.mp h with ⟨hdr, hh, rfl⟩
    exact msgUnpack_packStr f s hdr hh extra
  | pbytes bv =>
    rcases Option.map_eq_some'.mp h with ⟨hdr, hh, rfl⟩
    exact msgUnpack_packBin f bv hdr hh extra
  | plist xs =>
    rcases Option.bind_eq_some.mp h with ⟨body, hbody, hm⟩
    rcases Option.map_eq_some'.mp hm with ⟨hdr, hh, rfl⟩
    rw [List.append_assoc]
    rw [msgUnpack_packArray f xs.length hdr hh (body ++ extra)]
    rw [unpackItems_pack xs body hbody f (by simp [msgFuel] at hf; omega)
      extra]
    rfl
  | pdict kvs =>
    rcases Option.bind_eq_some.mp h with ⟨body, hbody, hm⟩
    rcases Option.map_eq_some'.mp hm with ⟨hdr, hh, rfl⟩
    rw [List.append_assoc]
    rw [msgUnpack_packMap f kvs.length hdr hh (body ++ extra)]
    rw [unpackPairs_pack kvs body hbody f (by simp [msgFuel] at hf; omega)
      extra]
    rfl

theorem unpackItems_pack (xs : List PyObj) (bs : List Nat)
    (h : packElems xs = some bs) (fuel : Nat) (hf : msgFuelList xs ≤ fuel)
    (extra : List Nat) :
    msgUnpackItems fuel xs.length (bs ++ extra) = some (xs, extra) := by
  cases xs with
  | nil =>
    injection h with hbs
    subst hbs
    rw [List.nil_append, List.length_nil]
    exact msgUnpackItems_zero fuel extra
  | cons x xs =>
    rcases Option.bind_eq_some.mp h with ⟨bx, hbx, hm⟩
    rcases Option.map_eq_some'.mp hm with ⟨brest, hbrest, rfl⟩
    obtain ⟨f, rfl⟩ : ∃ f, fuel = f + 1 := by
      simp [msgFuelList] at hf
      exact ⟨fuel - 1, by omega⟩
    have hfx : msgFuel x ≤ f := by simp [msgFuelList] at hf; omega
    have hfr : msgFuelList xs ≤ f := by simp [msgFuelList] at hf; omega
    rw [List.length_cons]
    show (msgUnpack f ((bx ++ brest) ++ extra)).bind _ = _
    rw [List.append_assoc]
    rw [unpack_pack x bx hbx f hfx (brest ++ extra)]
    rw [Option.some_bind]
    rw [unpackItems_pack xs brest hbrest f hfr extra]
    rfl

theorem unpackPairs_pack (kvs : List (PyObj × PyObj)) (bs : List Nat)
    (h : packPairs kvs = some bs) (fuel : Nat)
    (hf : msgFuelPairs kvs ≤ fuel) (extra : List Nat) :
    msgUnpackPairs fuel kvs.length (bs ++ extra) = some (kvs, extra) := by
  cases kvs with
  | nil =>
    injection h with hbs
    subst hbs
    rw [List.nil_append, List.length_nil]
    exact msgUnpackPairs_zero fuel extra
  | cons kv rest =>
    rcases Option.bind_eq_some.mp h with ⟨bk, hbk, hm⟩
    rcases Option.bind_eq_some.mp hm with ⟨bv, hbv, hm2⟩
    rcases Option.map_eq_some'.mp hm2 with ⟨brest, hbrest, rfl⟩
    obtain ⟨f, rfl⟩ : ∃ f, fuel = f + 1 := by
      simp [msgFuelPairs] at hf
      exact ⟨fuel - 1, by omega⟩
    have hfk : msgFuel kv.1 ≤ f := by simp [msgFuelPairs] at hf; omega
    have hfv : msgFuel kv.2 ≤ f := by simp [msgFuelPairs] at hf; omega
    have hfr : msgFuelPairs rest ≤ f := by simp [msgFuelPairs] at hf; omega
    rw [List.length_cons]
    simp only [List.append_assoc]
    show (msgUnpack f (bk ++ (bv ++ (brest ++ extra)))).bind _ = _
    rw [unpack_pack kv.1 bk hbk f hfk (bv ++ (brest ++ extra))]
    rw [Option.some_bind]
    rw [unpack_pack kv.2 bv hbv f hfv (brest ++ extra)]
    rw [Option.some_bind]
    rw [unpackPairs_pack rest brest hbrest f hfr extra]
    rfl

end

theorem msgFuel_pos (v : PyObj) : 1 ≤ msgFuel v := by
  cases v <;> simp [msgFuel]

theorem packStrHeader_pos (len : Nat) (hdr : List Nat)
    (h : packStrHeader len = some hdr) : 1 ≤ hdr.length := by
  unfold packStrHeader at h
  repeat' split at h
  all_goals first
  | (injection h with hbs; subst hbs; simp [be16, be32])
  | exact Option.noConfusion h

theorem packBinHeader_pos (len : Nat) (hdr : List Nat)
    (h : packBinHeader len = some hdr) : 1 ≤ hdr.length := by
  unfold packBinHeader at h
  repeat' split at h
  all_goals first
  | (injection h with hbs; subst hbs; simp [be16, be32])
  | exact Option.noConfusion h

theorem packArrayHeader_pos (len : Nat) (hdr : List Nat)
    (h : packArrayHeader len = some hdr) : 1 ≤ hdr.length := by
  unfold packArrayHeader at h
  repeat' split at h
  all_goals first
  | (injection h with hbs; subst hbs; simp [be16, be32])
  | exact Option.noConfusion h

theorem packMapHeader_pos (len : Nat) (hdr : List Nat)
    (h : packMapHeader len = some hdr) : 1 ≤ hdr.length := by
  unfold packMapHeader at h
  repeat' split at h
  all_goals first
  | (injection h with hbs; subst hbs; simp [be16, be32])
  | exact Option.noConfusion h

theorem packInt_pos (n : Int) (bs : List Nat) (h : packInt n = some bs) :
    1 ≤ bs.length := by
  unfold packInt at h
  split at h
  all_goals dsimp only at h
  all_goals repeat' split at h
  all_goals first
  | (injection h with hbs; subst hbs; simp [be16, be32, be64])
  | exact Option.noConfusion h

mutual

theorem msgFuel_le (v : PyObj) (bs : List Nat)
    (h : umsgpackPackb v = some bs) : msgFuel v + 1 ≤ 2 * bs.length := by
  cases v with
  | pnone =>
    injection h with hbs
    subst hbs
    simp [msgFuel]
  | pbool b =>
    cases b with
    | false =>
      injection h with hbs
      subst hbs
      simp [msgFuel]
    | true =>
      injection h with hbs
      subst hbs
      simp [msgFuel]
  | pint n =>
    have := packInt_pos n bs h
    simp [msgFuel]
    omega
  | pfloat fl =>
    unfold umsgpackPackb at h
    split at h
    · injection h with hbs
      subst hbs
      simp [msgFuel, be64]
    · exact Option.noConfusion h
  | puuid u => exact Option.noConfusion h
  | pstr s =>
    rcases Option.map_eq_some'.mp h with ⟨hdr, hh, rfl⟩
    have := packStrHeader_pos _ hdr hh
    simp [msgFuel]
    omega
  | pbytes bv =>
    rcases Option.map_eq_some'.mp h with ⟨hdr, hh, rfl⟩
    have := packBinHeader_pos _ hdr hh
    simp [msgFuel]
    omega
  | plist xs =>
    rcases Option.bind_eq_some.mp h with ⟨body, hbody, hm⟩
    rcases Option.map_eq_some'.mp hm with ⟨hdr, hh, rfl⟩
    have h1 := packArrayHeader_pos _ hdr hh
    have h2 := msgFuelList_le xs body hbody
    simp [msgFuel]
    omega
  | pdict kvs =>
    rcases Option.bind_eq_some.mp h with ⟨body, hbody, hm⟩
    rcases Option.map_eq_some'.mp hm with ⟨hdr, hh, rfl⟩
    have h1 := packMapHeader_pos _ hdr hh
    have h2 := msgFuelPairs_le kvs body hbody
    simp [msgFuel]
    omega

theorem msgFuelList_le (xs : List PyObj) (bs : List Nat)
    (h : packElems xs = some bs) : msgFuelList xs ≤ 2 * bs.length := by
  cases xs with
  | nil =>
    injection h with hbs
    subst hbs
    simp [msgFuelList]
  | cons x xs =>
    rcases Option.bind_eq_some.mp h with ⟨bx, hbx, hm⟩
    rcases Option.map_eq_some'.mp hm with ⟨brest, hbrest, rfl⟩
    have h1 := msgFuel_le x bx hbx
    have h2 := msgFuelList_le xs brest hbrest
    simp [msgFuelList]
    omega

theorem msgFuelPairs_le (kvs : List (PyObj × PyObj)) (bs : List Nat)
    (h : packPairs kvs = some bs) : msgFuelPairs kvs ≤ 2 * bs.length := by
  cases kvs with
  | nil =>
    injection h with hbs
    subst hbs
    simp [msgFuelPairs]
  | cons kv rest =>
    rcases Option.bind_eq_some.mp h with ⟨bk, hbk, hm⟩
    rcases Option.bind_eq_some.mp hm with ⟨bv, hbv, hm2⟩
    rcases Option.map_eq_some'.mp hm2 with ⟨brest, hbrest, rfl⟩
    have h1 := msgFuel_le kv.1 bk hbk
    have h2 := msgFuel_le kv.2 bv hbv
    have h3 := msgFuelPairs_le rest brest hbrest
    simp [msgFuelPairs]
    omega

end

theorem msgpack_wire_roundtrip (v : PyObj) (bs : List Nat)
    (h : umsgpackPackb v = some bs) : umsgpackUnpackb bs = some v := by
  unfold umsgpackUnpackb
  have hb := msgFuel_le v bs h
  have hu := unpack_pack v bs h (2 * bs.length + 2) (by omega) []
  rw [List.append_nil] at hu
  rw [hu]
  rfl

/-- Lowercase hexadecimal digit for a value below 16, as emitted by the
json module's unicode escapes. -/
def hexDigitLower (n : Nat) : Char :=
  if n < 10 then Char.ofNat (48 + n) else Char.ofNat (87 + n)

/-- A four digit lowercase unicode escape. -/
def uEscape (n : Nat) : List Char :=
  ['\\', 'u', hexDigitLower (n / 4096), hexDigitLower (n / 256 % 16),
   hexDigitLower (n / 16 % 16), hexDigitLower (n % 16)]

/-- Modelled from the spec: the json module's ensure-ascii escaping of one
character: quote, backslash and the named control characters get their
two character escapes, other control characters and every code point
above tilde get unicode escapes, with a surrogate pair beyond the basic
plane; printable ASCII passes through. -/
def jsonEscapeChar (c : Char) : List Char :=
  let n := c.toNat
  if c = '"' then ['\\', '"']
  else if c = '\\' then ['\\', '\\']
  else if n = 10 then ['\\', 'n']
  else if n = 9 then ['\\', 't']
  else if n = 13 then ['\\', 'r']
  else if n = 8 then ['\\', 'b']
  else if n = 12 then ['\\', 'f']
  else if n < 32 ∨ 127 ≤ n then
    if n < 65536 then uEscape n
    else uEscape (55296 + (n - 65536) / 1024) ++
      uEscape (56320 + (n - 65536) % 1024)
  else [c]

/-- A JSON string literal: quotes around the escaped characters. -/
def jsonQuote (s : String) : List Char :=
  '"' :: s.data.flatMap jsonEscapeChar ++ ['"']

/-- Decimal representation of an integer, as the Python repr. -/
def intToChars (n : Int) : List Char :=
  if n < 0 then '-' :: natToChars (-n).toNat else natToChars n.toNat

/-- Dict insertion over string keys carrying object values, the Python
dict semantics again: overwrite in place or append. -/
def pyObjDictInsert (acc : List (String × PyObj)) (k : String) (v : PyObj) :
    List (String × PyObj) :=
  if acc.any (fun kv => kv.1 == k) then
    acc.map (fun kv => if kv.1 == k then (k, v) else kv)
  else acc ++ [(k, v)]

/-- The dict built from parsed key value pairs, last binding wins. -/
def pyObjDictOf (ps : List (String × PyObj)) : List (String × PyObj) :=
  ps.foldl (fun acc kv => pyObjDictInsert acc kv.1 kv.2) []

mutual

/-- Modelled from the spec: json.dumps with the transcoder's options, the
compact separators and the dump-object default hook, over the value space
of the embedding: null, booleans and integers print their literals,
floats print the spec-modelled repr literal, strings print as escaped
literals, a UUID object takes the default hook path and prints as its
canonical string, a byte string takes the hook's base64 path and prints
as the base64 text literal, sequences print bracketed with comma
separators, mappings print braced with string keys only.  Non-string
mapping keys take the coercion path, outside the model; those return
none. -/
def jsonDumpChars : PyObj → Option (List Char)
  | .pnone => some ['n', 'u', 'l', 'l']
  | .pbool true => some ['t', 'r', 'u', 'e']
  | .pbool false => some ['f', 'a', 'l', 's', 'e']
  | .pint n => some (intToChars n)
  | .pfloat bits => some (floatRepr bits)
  | .pstr s => some (jsonQuote s)
  | .puuid u => some (jsonQuote u)
  | .pbytes bs => some (jsonQuote (base64Str bs))
  | .plist xs => (jsonDumpList xs).map fun body => '[' :: body ++ [']']
  | .pdict kvs =>
    (jsonDumpEntries kvs).map fun body => '\x7b' :: body ++ ['\x7d']

/-- Comma separated dump of sequence elements. -/
def jsonDumpList : List PyObj → Option (List Char)
  | [] => some []
  | x :: xs =>
    (jsonDumpChars x).bind fun cx =>
      (jsonDumpList xs).map fun rest =>
        cx ++ if xs.isEmpty then [] else ',' :: rest

/-- Comma separated dump of mapping entries with string keys. -/
def jsonDumpEntries : List (PyObj × PyObj) → Option (List Char)
  | [] => some []
  | kv :: rest =>
    match kv.1 with
    | .pstr k =>
      (jsonDumpChars kv.2).bind fun cv =>
        (jsonDumpEntries rest).map fun crest =>
          (jsonQuote k ++ ':' :: cv) ++
            if rest.isEmpty then [] else ',' :: crest
    | _ => none

end

/-- json.dumps of the transcoder, as a string. -/
def jsonDumps (v : PyObj) : Option String :=
  (jsonDumpChars v).map String.mk

/-- A decimal digit character. -/
def isDigitChar (c : Char) : Bool :=
  48 ≤ c.toNat && c.toNat ≤ 57

/-- Drop JSON insignificant whitespace. -/
def skipWs (cs : List Char) : List Char :=
  cs.dropWhile fun c => c = ' ' ∨ c = '\t' ∨ c = '\n' ∨ c = '\r'

/-- Accumulate decimal digits from the front of the stream. -/
def readDigits : List Char → Nat → Nat × List Char
  | [], acc => (acc, [])
  | c :: rest, acc =>
    if isDigitChar c then readDigits rest (acc * 10 + (c.toNat - 48))
    else (acc, c :: rest)

/-- Parse an unsigned integer literal; a fraction or exponent marker right
after the digits means a float token instead. -/
def parseNat (cs : List Char) : Option (Nat × List Char) :=
  match cs with
  | c :: rest =>
    if isDigitChar c then
      let r := readDigits rest (c.toNat - 48)
      match r.2 with
      | d :: _ => if d = '.' ∨ d = 'e' ∨ d = 'E' then none else some r
      | [] => some r
    else none
  | [] => none

/-- Parse a JSON number restricted to integers. -/
def parseNum (cs : List Char) : Option (Int × List Char) :=
  match cs with
  | '-' :: rest => (parseNat rest).map fun nr => (-(nr.1 : Int), nr.2)
  | _ => (parseNat cs).map fun nr => ((nr.1 : Int), nr.2)

/-- Modelled from the spec: recognize a float literal in the image of the
spec-modelled repr - digits, a dot and the modelled fractional digit -
recovering the bit pattern the repr printed.  Tokens outside that image
carry externally printed digits whose value only the IEEE runtime can
reconstruct and are outside the model. -/
def parseFloatTok (cs : List Char) : Option (Nat × List Char) :=
  match cs with
  | c :: rest =>
    if isDigitChar c then
      let r := readDigits rest (c.toNat - 48)
      match r.2 with
      | '.' :: '0' :: tail =>
        match tail with
        | d :: _ =>
          if isDigitChar d = true ∨ d = '.' ∨ d = 'e' ∨ d = 'E' then none
          else some (r.1, tail)
        | [] => some (r.1, [])
      | _ => none
    else none
  | [] => none

/-- A JSON number token: a float literal from the modelled repr image, or
an integer literal. -/
def jsonParseNumber (cs : List Char) : Option (PyObj × List Char) :=
  match parseFloatTok cs with
  | some fr => some (.pfloat fr.1, fr.2)
  | none => (parseNum cs).map fun nr => (.pint nr.1, nr.2)

/-- Four hexadecimal digits. -/
def parseHex4 : List Char → Option (Nat × List Char)
  | a :: b :: c :: d :: rest =>
    (hexVal a).bind fun x =>
      (hexVal b).bind fun y =>
        (hexVal c).bind fun z =>
          (hexVal d).map fun w =>
            (4096 * x + 256 * y + 16 * z + w, rest)
  | _ => none

/-- Modelled from the spec: the json module's string literal scanner,
after the opening quote: plain characters accumulate, a backslash starts
a named escape or a unicode escape, a high and low surrogate escape pair
recombines into one code point.  A lone surrogate escape would produce a
non scalar value and is outside the model. -/
def parseJString : Nat → List Char → Option (List Char × List Char)
  | 0, _ => none
  | _+1, [] => none
  | fuel+1, c :: rest =>
    if c = '"' then some ([], rest)
    else if c = '\\' then
      match rest with
      | [] => none
      | e :: rest2 =>
        if e = 'u' then
          (parseHex4 rest2).bind fun hr =>
            if 55296 ≤ hr.1 ∧ hr.1 ≤ 56319 then
              match hr.2 with
              | '\\' :: 'u' :: rest3 =>
                (parseHex4 rest3).bind fun lr =>
                  if 56320 ≤ lr.1 ∧ lr.1 ≤ 57343 then
                    (parseJString fuel lr.2).map fun sr =>
                      (Char.ofNat (65536 + (hr.1 - 55296) * 1024 +
                        (lr.1 - 56320)) :: sr.1, sr.2)
                  else none
              | _ => none
            else if 56320 ≤ hr.1 ∧ hr.1 ≤ 57343 then none
            else (parseJString fuel hr.2).map fun sr =>
              (Char.ofNat hr.1 :: sr.1, sr.2)
        else
          (if e = '"' then some '"'
           else if e = '\\' then some '\\'
           else if e = '/' then some '/'
           else if e = 'b' then some (Char.ofNat 8)
           else if e = 'f' then some (Char.ofNat 12)
           else if e = 'n' then some (Char.ofNat 10)
           else if e = 'r' then some (Char.ofNat 13)
           else if e = 't' then some (Char.ofNat 9)
           else none).bind fun d =>
            (parseJString fuel rest2).map fun sr => (d :: sr.1, sr.2)
    else (parseJString fuel rest).map fun sr => (c :: sr.1, sr.2)

mutual

/-- Modelled from the spec: the json module's recursive descent value
parser: literals, integer and modelled float number tokens, strings,
arrays and objects.  The fuel bounds the recursion depth. -/
def jsonParse : Nat → List Char → Option (PyObj × List Char)
  | 0, _ => none
  | fuel+1, cs =>
    match skipWs cs with
    | [] => none
    | c :: rest =>
      if c = 'n' then
        match rest with
        | 'u' :: 'l' :: 'l' :: r => some (.pnone, r)
        | _ => none
      else if c = 't' then
        match rest with
        | 'r' :: 'u' :: 'e' :: r => some (.pbool true, r)
        | _ => none
      else if c = 'f' then
        match rest with
        | 'a' :: 'l' :: 's' :: 'e' :: r => some (.pbool false, r)
        | _ => none
      else if c = '"' then
        (parseJString (rest.length + 1) rest).map fun sr =>
          (.pstr (String.mk sr.1), sr.2)
      else if c = '[' then
        match skipWs rest with
        | ']' :: r => some (.plist [], r)
        | cs2 => (jsonParseItems fuel cs2).map fun ir => (.plist ir.1, ir.2)
      else if c = '\x7b' then
        match skipWs rest with
        | '\x7d' :: r => some (.pdict [], r)
        | cs2 =>
          (jsonParseEntries fuel cs2).map fun er =>
            (.pdict ((pyObjDictOf er.1).map fun kv => (.pstr kv.1, kv.2)),
              er.2)
      else jsonParseNumber (c :: rest)

/-- Array elements after the opening bracket of a nonempty array. -/
def jsonParseItems : Nat → List Char → Option (List PyObj × List Char)
  | 0, _ => none
  | fuel+1, cs =>
    (jsonParse fuel cs).bind fun vr =>
      match skipWs vr.2 with
      | ',' :: r => (jsonParseItems fuel r).map fun ir => (vr.1 :: ir.1, ir.2)
      | ']' :: r => some ([vr.1], r)
      | _ => none

/-- Object entries after the opening brace of a nonempty object. -/
def jsonParseEntries :
    Nat → List Char → Option (List (String × PyObj) × List Char)
  | 0, _ => none
  | fuel+1, cs =>
    match skipWs cs with
    | '"' :: rest =>
      (parseJString (rest.length + 1) rest).bind fun kr =>
        match skipWs kr.2 with
        | ':' :: r =>
          (jsonParse fuel r).bind fun vr =>
            match skipWs vr.2 with
            | ',' :: r2 =>
              (jsonParseEntries fuel r2).map fun er =>
                ((String.mk kr.1, vr.1) :: er.1, er.2)
            | '\x7d' :: r2 => some ([(String.mk kr.1, vr.1)], r2)
            | _ => none
        | _ => none
    | _ => none

end

/-- json.loads of the transcoder: parse one value and insist the rest is
whitespace, as the module raises on extra data. -/
def jsonLoads (s : String) : Option PyObj :=
  (jsonParse (2 * s.data.length + 2) s.data).bind fun vr =>
    if (skipWs vr.2).isEmpty then some vr.1 else none


/-- The key string of an entry whose key is a string. -/
def keyStr : PyObj → String
  | .pstr k => k
  | _ => ""

mutual

/-- The value the JSON codec reconstructs for a dumped value: a UUID
comes back as its canonical string, a byte string comes back as its
base64 text, mappings come back with the dict constructor applied to
their entries (string keys, last binding wins), everything else in the
dumpable space comes back unchanged. -/
def jsonImage : PyObj → PyObj
  | .puuid u => .pstr u
  | .pbytes bs => .pstr (base64Str bs)
  | .plist xs => .plist (jsonImageList xs)
  | .pdict kvs =>
    .pdict ((pyObjDictOf (jsonImageEntries kvs)).map fun kv =>
      (.pstr kv.1, kv.2))
  | v => v

/-- Elementwise image of a sequence. -/
def jsonImageList : List PyObj → List PyObj
  | [] => []
  | x :: xs => jsonImage x :: jsonImageList xs

/-- Image of mapping entries as string keyed pairs. -/
def jsonImageEntries : List (PyObj × PyObj) → List (String × PyObj)
  | [] => []
  | kv :: rest => (keyStr kv.1, jsonImage kv.2) :: jsonImageEntries rest

end

/-- Embeds TextContentHandler.to_bytes for the JSON transcoder: dumps,
then encode with the default utf-8 charset; the returned content type
carries the charset parameter.  The tornado recursive-unicode step is the
identity on the modelled value space, which holds no byte strings that
dump successfully. -/
def jsonToBytes (v : PyObj) : Option (String × List Nat) :=
  (jsonDumps v).map fun s =>
    ("application/json; charset=\"utf-8\"", utf8Encode s)

/-- Modelled from the spec: the strict utf-8 text decode raises on
malformed input; it succeeds exactly when re-encoding the best effort
decode reproduces the bytes. -/
def utf8DecodeStrict (bs : List Nat) : Option String :=
  let s := String.mk (utf8DecodeReplace bs)
  if utf8Encode s = bs then some s else none

/-- Embeds TextContentHandler.from_bytes for the JSON transcoder: decode
the bytes as utf-8, then loads. -/
def jsonFromBytes (bs : List Nat) : Option PyObj :=
  (utf8DecodeStrict bs).bind jsonLoads


theorem hexVal_hexDigitLower (x : Nat) (hx : x < 16) :
    hexVal (hexDigitLower x) = some x := by
  have hfin : ∀ y : Fin 16, hexVal (hexDigitLower y.val) = some y.val := by
    decide
  exact hfin ⟨x, hx⟩

theorem parseHex4_uEscape (n : Nat) (h : n < 65536) (rest : List Char) :
    parseHex4 (hexDigitLower (n / 4096) :: hexDigitLower (n / 256 % 16) ::
      hexDigitLower (n / 16 % 16) :: hexDigitLower (n % 16) :: rest) =
      some (n, rest) := by
  unfold parseHex4
  dsimp only
  rw [hexVal_hexDigitLower _ (by omega), hexVal_hexDigitLower _ (by omega),
    hexVal_hexDigitLower _ (by omega), hexVal_hexDigitLower _ (by omega)]
  simp only [Option.some_bind, Option.map_some']
  congr 1
  congr 1
  omega

theorem natToCharsAux_digits (fuel n : Nat) :
    ∀ c ∈ natToCharsAux fuel n, isDigitChar c = true := by
  induction fuel generalizing n with
  | zero => intro c hc; cases hc
  | succ f ih =>
    intro c hc
    unfold natToCharsAux at hc
    by_cases hz : n = 0
    · rw [if_pos hz] at hc
      cases hc
    · rw [if_neg hz] at hc
      rcases List.mem_append.mp hc with h1 | h2
      · exact ih (n / 10) c h1
      · have : c = Char.ofNat (48 + n % 10) := by simpa using h2
        subst this
        simp [isDigitChar, charToNat_ofNat_small (48 + n % 10) (by omega)]
        omega

theorem readDigits_all (ds : List Char) (hds : ∀ c ∈ ds, isDigitChar c = true)
    (extra : List Char)
    (hex : ∀ d rest, extra = d :: rest → isDigitChar d = false) (acc : Nat) :
    readDigits (ds ++ extra) acc =
      (ds.foldl (fun a c => a * 10 + (c.toNat - 48)) acc, extra) := by
  induction ds generalizing acc with
  | nil =>
    rw [List.nil_append, List.foldl_nil]
    cases extra with
    | nil => rfl
    | cons d rest =>
      unfold readDigits
      rw [if_neg]
      rw [hex d rest rfl]
      exact Bool.false_ne_true
  | cons c cs ih =>
    rw [List.cons_append, List.foldl_cons]
    unfold readDigits
    rw [if_pos (hds c (List.mem_cons_self c cs))]
    exact ih (fun x hx => hds x (List.mem_cons_of_mem c hx)) _

theorem natToCharsAux_foldl (fuel : Nat) :
    ∀ n acc, n ≤ fuel →
      (natToCharsAux fuel n).foldl (fun a c => a * 10 + (c.toNat - 48)) acc =
        acc * 10 ^ (natToCharsAux fuel n).length + n := by
  induction fuel with
  | zero =>
    intro n acc hn
    simp [natToCharsAux]
    omega
  | succ f ih =>
    intro n acc hn
    unfold natToCharsAux
    by_cases hz : n = 0
    · rw [if_pos hz]
      simp
      omega
    · rw [if_neg hz]
      rw [List.foldl_append]
      rw [ih (n / 10) acc (by omega)]
      rw [List.foldl_cons, List.foldl_nil]
      rw [List.length_append, List.length_cons, List.length_nil]
      rw [charToNat_ofNat_small _ (by omega)]
      have h1 : 48 + n % 10 - 48 = n % 10 := by omega
      rw [h1]
      have h2 : (natToCharsAux f (n / 10)).length + (0 + 1) =
          (natToCharsAux f (n / 10)).length + 1 := by omega
      rw [h2, pow_succ]
      rw [Nat.add_mul, Nat.mul_assoc, Nat.add_assoc]
      congr 1
      omega

theorem natToCharsAux_ne_nil (n : Nat) (hn : 0 < n) :
    natToCharsAux n n ≠ [] := by
  intro he
  have := natToCharsAux_foldl n n 0 (Nat.le_refl n)
  rw [he] at this
  simp at this
  omega

theorem natToChars_digits (n : Nat) :
    ∀ c ∈ natToChars n, isDigitChar c = true := by
  unfold natToChars
  by_cases hz : n = 0
  · rw [if_pos hz]
    intro c hc
    have : c = '0' := by simpa using hc
    subst this
    decide
  · rw [if_neg hz]
    exact natToCharsAux_digits n n

theorem natToChars_cons (n : Nat) :
    ∃ c cs, natToChars n = c :: cs ∧ isDigitChar c = true := by
  cases hh : natToChars n with
  | nil =>
    exfalso
    unfold natToChars at hh
    by_cases hz : n = 0
    · rw [if_pos hz] at hh
      exact List.noConfusion hh
    · rw [if_neg hz] at hh
      exact natToCharsAux_ne_nil n (by omega) hh
  | cons c cs =>
    refine ⟨c, cs, rfl, ?_⟩
    have := natToChars_digits n c
    rw [hh] at this
    exact this (List.mem_cons_self c cs)

theorem natToChars_foldl (n : Nat) (c : Char) (cs : List Char)
    (h : natToChars n = c :: cs) :
    cs.foldl (fun a ch => a * 10 + (ch.toNat - 48)) (c.toNat - 48) = n := by
  unfold natToChars at h
  by_cases hz : n = 0
  · rw [if_pos hz] at h
    injection h with h1 h2
    subst h1
    subst h2
    subst hz
    rfl
  · rw [if_neg hz] at h
    have hfold := natToCharsAux_foldl n n 0 (Nat.le_refl n)
    rw [h, List.foldl_cons] at hfold
    simp only [Nat.zero_mul, Nat.zero_add] at hfold
    exact hfold

/-- The characters that may follow a complete JSON value in context. -/
def jsonStop (extra : List Char) : Prop :=
  match extra with
  | [] => True
  | c :: _ => c = ',' ∨ c = ']' ∨ c = '\x7d'

theorem jsonStop_head (extra : List Char) (h : jsonStop extra) :
    ∀ d rest, extra = d :: rest →
      isDigitChar d = false ∧ ¬ d = '.' ∧ ¬ d = 'e' ∧ ¬ d = 'E' := by
  intro d rest he
  subst he
  unfold jsonStop at h
  rcases h with h | h | h <;> subst h <;>
    refine ⟨by decide, by decide, by decide, by decide⟩

theorem parseNat_natToChars (n : Nat) (extra : List Char)
    (hstop : jsonStop extra) :
    parseNat (natToChars n ++ extra) = some (n, extra) := by
  have hstopd := jsonStop_head extra hstop
  by_cases hz : n = 0
  · subst hz
    unfold natToChars
    rw [if_pos rfl]
    rw [List.cons_append, List.nil_append]
    unfold parseNat
    dsimp only
    rw [if_pos (by decide)]
    have hrd := readDigits_all [] (by intro c hc; cases hc) extra
      (fun d rest he => (hstopd d rest he).1) (('0').toNat - 48)
    rw [List.nil_append] at hrd
    rw [hrd]
    cases extra with
    | nil => rfl
    | cons d rest =>
      dsimp only
      rw [if_neg (by
        have hd := hstopd d rest rfl
        intro hor
        rcases hor with h | h | h
        · exact hd.2.1 h
        · exact hd.2.2.1 h
        · exact hd.2.2.2 h)]
      rfl
  · unfold natToChars
    rw [if_neg hz]
    cases haux : natToCharsAux n n with
    | nil => exact absurd haux (natToCharsAux_ne_nil n (by omega))
    | cons c cs =>
      have hdigs : ∀ x ∈ c :: cs, isDigitChar x = true := by
        rw [← haux]; exact natToCharsAux_digits n n
      have hc := hdigs c (List.mem_cons_self c cs)
      rw [List.cons_append]
      unfold parseNat
      dsimp only
      rw [if_pos hc]
      have hrd := readDigits_all cs
        (fun x hx => hdigs x (List.mem_cons_of_mem c hx)) extra
        (fun d rest he => (hstopd d rest he).1) (c.toNat - 48)
      rw [hrd]
      have hfold := natToCharsAux_foldl n n 0 (Nat.le_refl n)
      rw [haux, List.foldl_cons] at hfold
      simp only [Nat.zero_mul, Nat.zero_add] at hfold
      rw [hfold]
      cases extra with
      | nil => rfl
      | cons d rest =>
        dsimp only
        rw [if_neg (by
          have hd := hstopd d rest rfl
          intro hor
          rcases hor with h | h | h
          · exact hd.2.1 h
          · exact hd.2.2.1 h
          · exact hd.2.2.2 h)]

theorem parseNum_intToChars (n : Int) (extra : List Char)
    (hstop : jsonStop extra) :
    parseNum (intToChars n ++ extra) = some (n, extra) := by
  unfold intToChars
  by_cases hneg : n < 0
  · rw [if_pos hneg]
    rw [List.cons_append]
    unfold parseNum
    split
    · rename_i rest heq
      injection heq with h1 h2
      subst h2
      rw [parseNat_natToChars _ extra hstop]
      rw [Option.map_some']
      congr 2
      omega
    · rename_i hne
      exact absurd rfl (hne _)
  · rw [if_neg hneg]
    unfold parseNum
    split
    · rename_i rest heq
      exfalso
      cases haux2 : natToChars n.toNat with
      | nil =>
        unfold natToChars at haux2
        by_cases hz : n.toNat = 0
        · rw [if_pos hz] at haux2
          exact List.noConfusion haux2
        · rw [if_neg hz] at haux2
          exact natToCharsAux_ne_nil n.toNat (by omega) haux2
      | cons c cs =>
        have hcdig : isDigitChar c = true := by
          unfold natToChars at haux2
          by_cases hz : n.toNat = 0
          · rw [if_pos hz] at haux2
            injection haux2 with h1 h2
            subst h1
            decide
          · rw [if_neg hz] at haux2
            have := natToCharsAux_digits n.toNat n.toNat c
            rw [haux2] at this
            exact this (List.mem_cons_self c cs)
        rw [haux2, List.cons_append] at heq
        injection heq with h1 h2
        subst h1
        exact absurd hcdig (by decide)
    · rw [parseNat_natToChars _ extra hstop]
      rw [Option.map_some']
      congr 2
      omega

theorem parseFloatTok_intToChars (n : Int) (extra : List Char)
    (hstop : jsonStop extra) :
    parseFloatTok (intToChars n ++ extra) = none := by
  have hstopd := jsonStop_head extra hstop
  unfold intToChars
  by_cases hneg : n < 0
  · rw [if_pos hneg, List.cons_append]
    unfold parseFloatTok
    dsimp only
    rw [if_neg (by decide)]
  · rw [if_neg hneg]
    rcases natToChars_cons n.toNat with ⟨c, cs, hh, hc⟩
    have hdigs := natToChars_digits n.toNat
    rw [hh] at hdigs
    rw [hh, List.cons_append]
    unfold parseFloatTok
    dsimp only
    rw [if_pos hc]
    have hrd := readDigits_all cs
      (fun x hx => hdigs x (List.mem_cons_of_mem c hx)) extra
      (fun d rest he => (hstopd d rest he).1) (c.toNat - 48)
    rw [hrd]
    cases extra with
    | nil => rfl
    | cons d rest =>
      have hd := hstopd d rest rfl
      split
      · rename_i tail heq
        injection heq with e1 e2
        exact absurd e1 hd.2.1
      · rfl

theorem parseFloatTok_floatRepr (bits : Nat) (extra : List Char)
    (hstop : jsonStop extra) :
    parseFloatTok (floatRepr bits ++ extra) = some (bits, extra) := by
  have hstopd := jsonStop_head extra hstop
  rcases natToChars_cons bits with ⟨c, cs, hh, hc⟩
  have hdigs := natToChars_digits bits
  rw [hh] at hdigs
  have hfold := natToChars_foldl bits c cs hh
  unfold floatRepr
  rw [hh]
  simp only [List.append_assoc, List.cons_append, List.nil_append]
  unfold parseFloatTok
  dsimp only
  rw [if_pos hc]
  have hrd := readDigits_all cs
    (fun x hx => hdigs x (List.mem_cons_of_mem c hx)) ('.' :: '0' :: extra)
    (fun d rest he => by
      injection he with e1 e2
      subst e1
      decide) (c.toNat - 48)
  rw [hrd]
  cases extra with
  | nil =>
    dsimp only
    rw [hfold]
    split
    · rename_i tail heq
      injection heq with e1 e2
      injection e2 with e3 e4
      subst e4
      rfl
    · rename_i hne
      exact absurd rfl (hne [])
  | cons d rest =>
    have hd := hstopd d rest rfl
    dsimp only
    rw [hfold]
    split
    · rename_i tail heq
      injection heq with e1 e2
      injection e2 with e3 e4
      subst e4
      dsimp only
      rw [if_neg (by
        intro hor
        rcases hor with h | h | h | h
        · rw [hd.1] at h
          exact Bool.false_ne_true h
        · exact hd.2.1 h
        · exact hd.2.2.1 h
        · exact hd.2.2.2 h)]
    · rename_i hne
      exact absurd rfl (hne (d :: rest))

theorem jsonParseNumber_int (n : Int) (extra : List Char)
    (hstop : jsonStop extra) :
    jsonParseNumber (intToChars n ++ extra) = some (.pint n, extra) := by
  unfold jsonParseNumber
  rw [parseFloatTok_intToChars n extra hstop]
  rw [parseNum_intToChars n extra hstop]
  rfl

theorem jsonParseNumber_float (bits : Nat) (extra : List Char)
    (hstop : jsonStop extra) :
    jsonParseNumber (floatRepr bits ++ extra) =
      some (.pfloat bits, extra) := by
  unfold jsonParseNumber
  rw [parseFloatTok_floatRepr bits extra hstop]

theorem parseJString_plain (fuel : Nat) (c : Char) (hq : ¬ c = '"')
    (hb : ¬ c = '\\') (rest : List Char) :
    parseJString (fuel+1) (c :: rest) =
      (parseJString fuel rest).map fun sr => (c :: sr.1, sr.2) := by
  conv_lhs => unfold parseJString
  rw [if_neg hq, if_neg hb]

theorem jsonEscapeChar_pos (c : Char) : 1 ≤ (jsonEscapeChar c).length := by
  unfold jsonEscapeChar
  dsimp only
  split_ifs <;> simp [uEscape]

theorem charValid_lt (c : Char) : c.toNat < 1114112 := by
  rcases charValid c with h | h
  · omega
  · omega

theorem parseJString_escape (cs : List Char) :
    ∀ fuel, (cs.flatMap jsonEscapeChar).length + 1 ≤ fuel → ∀ extra,
      parseJString fuel (cs.flatMap jsonEscapeChar ++ ('"' :: extra)) =
        some (cs, extra) := by
  induction cs with
  | nil =>
    intro fuel hf extra
    obtain ⟨f, rfl⟩ : ∃ f, fuel = f + 1 := ⟨fuel - 1, by omega⟩
    rfl
  | cons c rest ih =>
    intro fuel hf extra
    rw [List.flatMap_cons] at hf ⊢
    rw [List.length_append] at hf
    have hpos := jsonEscapeChar_pos c
    obtain ⟨f, rfl⟩ : ∃ f, fuel = f + 1 := ⟨fuel - 1, by omega⟩
    have hIH := ih f (by omega) extra
    by_cases hq : c = '"'
    · subst hq
      rw [show jsonEscapeChar '"' = ['\\', '"'] from rfl]
      simp only [List.cons_append, List.nil_append]
      unfold parseJString
      rw [if_neg (by decide), if_pos rfl]
      dsimp only
      rw [if_neg (by decide)]
      rw [if_pos rfl]
      rw [Option.some_bind]
      rw [hIH, Option.map_some']
    by_cases hb : c = '\\'
    · subst hb
      rw [show jsonEscapeChar '\\' = ['\\', '\\'] from rfl]
      simp only [List.cons_append, List.nil_append]
      unfold parseJString
      rw [if_neg (by decide), if_pos rfl]
      dsimp only
      rw [if_neg (by decide)]
      rw [if_neg (by decide), if_pos rfl]
      rw [Option.some_bind]
      rw [hIH, Option.map_some']
    by_cases h10 : c.toNat = 10
    · have hc : c = Char.ofNat 10 := charInj (by rw [h10]; rfl)
      subst hc
      rw [show jsonEscapeChar (Char.ofNat 10) = ['\\', 'n'] from rfl]
      simp only [List.cons_append, List.nil_append]
      unfold parseJString
      rw [if_neg (by decide), if_pos rfl]
      dsimp only
      rw [if_neg (by decide)]
      rw [if_neg (by decide), if_neg (by decide), if_neg (by decide),
        if_neg (by decide), if_neg (by decide), if_pos rfl]
      rw [Option.some_bind]
      rw [hIH, Option.map_some']
    by_cases h9 : c.toNat = 9
    · have hc : c = Char.ofNat 9 := charInj (by rw [h9]; rfl)
      subst hc
      rw [show jsonEscapeChar (Char.ofNat 9) = ['\\', 't'] from rfl]
      simp only [List.cons_append, List.nil_append]
      unfold parseJString
      rw [if_neg (by decide), if_pos rfl]
      dsimp only
      rw [if_neg (by decide)]
      rw [if_neg (by decide), if_neg (by decide), if_neg (by decide),
        if_neg (by decide), if_neg (by decide), if_neg (by decide),
        if_neg (by decide), if_pos rfl]
      rw [Option.some_bind]
      rw [hIH, Option.map_some']
    by_cases h13 : c.toNat = 13
    · have hc : c = Char.ofNat 13 := charInj (by rw [h13]; rfl)
      subst hc
      rw [show jsonEscapeChar (Char.ofNat 13) = ['\\', 'r'] from rfl]
      simp only [List.cons_append, List.nil_append]
      unfold parseJString
      rw [if_neg (by decide), if_pos rfl]
      dsimp only
      rw [if_neg (by decide)]
      rw [if_neg (by decide), if_neg (by decide), if_neg (by decide),
        if_neg (by decide), if_neg (by decide), if_neg (by decide),
        if_pos rfl]
      rw [Option.some_bind]
      rw [hIH, Option.map_some']
    by_cases h8 : c.toNat = 8
    · have hc : c = Char.ofNat 8 := charInj (by rw [h8]; rfl)
      subst hc
      rw [show jsonEscapeChar (Char.ofNat 8) = ['\\', 'b'] from rfl]
      simp only [List.cons_append, List.nil_append]
      unfold parseJString
      rw [if_neg (by decide), if_pos rfl]
      dsimp only
      rw [if_neg (by decide)]
      rw [if_neg (by decide), if_neg (by decide), if_neg (by decide),
        if_pos rfl]
      rw [Option.some_bind]
      rw [hIH, Option.map_some']
    by_cases h12 : c.toNat = 12
    · have hc : c = Char.ofNat 12 := charInj (by rw [h12]; rfl)
      subst hc
      rw [show jsonEscapeChar (Char.ofNat 12) = ['\\', 'f'] from rfl]
      simp only [List.cons_append, List.nil_append]
      unfold parseJString
      rw [if_neg (by decide), if_pos rfl]
      dsimp only
      rw [if_neg (by decide)]
      rw [if_neg (by decide), if_neg (by decide), if_neg (by decide),
        if_neg (by decide), if_pos rfl]
      rw [Option.some_bind]
      rw [hIH, Option.map_some']
    by_cases h32 : c.toNat < 32 ∨ 127 ≤ c.toNat
    · have hesc : jsonEscapeChar c =
          (if c.toNat < 65536 then uEscape c.toNat
           else uEscape (55296 + (c.toNat - 65536) / 1024) ++
             uEscape (56320 + (c.toNat - 65536) % 1024)) := by
        unfold jsonEscapeChar
        dsimp only
        rw [if_neg hq, if_neg hb, if_neg h10, if_neg h9, if_neg h13,
          if_neg h8, if_neg h12, if_pos h32]
      by_cases hbmp : c.toNat < 65536
      · rw [hesc, if_pos hbmp]
        unfold uEscape
        simp only [List.cons_append, List.nil_append]
        unfold parseJString
        rw [if_neg (by decide), if_pos rfl]
        dsimp only
        rw [if_pos rfl]
        rw [parseHex4_uEscape c.toNat hbmp]
        rw [Option.some_bind]
        rw [if_neg (by rcases charValid c with h | h <;> omega)]
        rw [if_neg (by rcases charValid c with h | h <;> omega)]
        rw [hIH, Option.map_some']
        rw [Char.ofNat_toNat]
      · have hvc := charValid_lt c
        rw [hesc, if_neg hbmp]
        unfold uEscape
        simp only [List.cons_append, List.nil_append, List.append_assoc]
        unfold parseJString
        rw [if_neg (by decide), if_pos rfl]
        dsimp only
        rw [if_pos rfl]
        rw [parseHex4_uEscape _ (by omega)]
        rw [Option.some_bind]
        rw [if_pos (by constructor <;> omega)]
        split
        · rename_i rest3 heq
          injection heq with e1 e2
          injection e2 with e3 e4
          subst e4
          rw [parseHex4_uEscape _ (by omega)]
          rw [Option.some_bind]
          rw [if_pos (by constructor <;> omega)]
          rw [hIH, Option.map_some']
          have harg : 65536 +
              (55296 + (c.toNat - 65536) / 1024 - 55296) * 1024 +
              (56320 + (c.toNat - 65536) % 1024 - 56320) = c.toNat := by
            omega
          rw [harg, Char.ofNat_toNat]
        · rename_i hne
          exact absurd rfl (hne _)
    · have hesc : jsonEscapeChar c = [c] := by
        unfold jsonEscapeChar
        dsimp only
        rw [if_neg hq, if_neg hb, if_neg h10, if_neg h9, if_neg h13,
          if_neg h8, if_neg h12, if_neg h32]
      rw [hesc]
      rw [List.cons_append, List.nil_append, List.cons_append]
      rw [parseJString_plain f c hq hb]
      rw [hIH, Option.map_some']

mutual

/-- The parser recursion depth needed for a dumped value. -/
def jsonFuelV : PyObj → Nat
  | .plist xs => jsonFuelL xs + 1
  | .pdict kvs => jsonFuelE kvs + 1
  | _ => 1

/-- Depth needed for a run of array elements. -/
def jsonFuelL : List PyObj → Nat
  | [] => 0
  | x :: xs => max (jsonFuelV x) (jsonFuelL xs) + 1

/-- Depth needed for a run of object entries. -/
def jsonFuelE : List (PyObj × PyObj) → Nat
  | [] => 0
  | kv :: rest => max (jsonFuelV kv.2) (jsonFuelE rest) + 1

end

theorem jsonFuelV_pos (v : PyObj) : 1 ≤ jsonFuelV v := by
  cases v <;> simp [jsonFuelV]

theorem skipWs_cons (c : Char) (rest : List Char)
    (h : ¬ (c = ' ' ∨ c = '\t' ∨ c = '\n' ∨ c = '\r')) :
    skipWs (c :: rest) = c :: rest := by
  unfold skipWs
  rw [List.dropWhile_cons]
  rw [if_neg]
  intro hd
  exact h (of_decide_eq_true hd)

theorem natToChars_ne_nil (n : Nat) : natToChars n ≠ [] := by
  unfold natToChars
  by_cases hz : n = 0
  · rw [if_pos hz]
    exact List.noConfusion
  · rw [if_neg hz]
    exact natToCharsAux_ne_nil n (by omega)

theorem intToChars_head (n : Int) :
    ∃ c cs, intToChars n = c :: cs ∧ (c = '-' ∨ isDigitChar c = true) := by
  unfold intToChars
  by_cases hneg : n < 0
  · rw [if_pos hneg]
    exact ⟨'-', natToChars (-n).toNat, rfl, Or.inl rfl⟩
  · rw [if_neg hneg]
    cases hh : natToChars n.toNat with
    | nil => exact absurd hh (natToChars_ne_nil n.toNat)
    | cons c cs =>
      refine ⟨c, cs, rfl, Or.inr ?_⟩
      unfold natToChars at hh
      by_cases hz : n.toNat = 0
      · rw [if_pos hz] at hh
        injection hh with h1 h2
        subst h1
        decide
      · rw [if_neg hz] at hh
        have := natToCharsAux_digits n.toNat n.toNat c
        rw [hh] at this
        exact this (List.mem_cons_self c cs)

theorem floatRepr_head (bits : Nat) :
    ∃ c cs, floatRepr bits = c :: cs ∧ isDigitChar c = true := by
  rcases natToChars_cons bits with ⟨c, cs, hh, hc⟩
  refine ⟨c, cs ++ ['.', '0'], ?_, hc⟩
  unfold floatRepr
  rw [hh, List.cons_append]

theorem jsonDump_head (v : PyObj) (cs : List Char)
    (h : jsonDumpChars v = some cs) :
    ∃ c cs2, cs = c :: cs2 ∧
      (c = '\x7b' ∨ c = '[' ∨ c = '"' ∨ c = 't' ∨ c = 'f' ∨ c = 'n' ∨
        c = '-' ∨ isDigitChar c = true) := by
  cases v with
  | pnone =>
    injection h with hcs
    subst hcs
    exact ⟨'n', _, rfl, by simp⟩
  | pbool b =>
    cases b with
    | true =>
      injection h with hcs
      subst hcs
      exact ⟨'t', _, rfl, by simp⟩
    | false =>
      injection h with hcs
      subst hcs
      exact ⟨'f', _, rfl, by simp⟩
  | pint n =>
    injection h with hcs
    subst hcs
    rcases intToChars_head n with ⟨c, cs2, he, hc⟩
    rw [he]
    refine ⟨c, cs2, rfl, ?_⟩
    rcases hc with h1 | h1
    · exact Or.inr (Or.inr (Or.inr (Or.inr (Or.inr (Or.inr (Or.inl h1))))))
    · exact Or.inr (Or.inr (Or.inr (Or.inr (Or.inr (Or.inr (Or.inr h1))))))
  | pfloat fl =>
    injection h with hcs
    subst hcs
    rcases floatRepr_head fl with ⟨c, cs2, he, hc⟩
    rw [he]
    exact ⟨c, cs2, rfl, Or.inr (Or.inr (Or.inr (Or.inr (Or.inr (Or.inr
      (Or.inr hc))))))⟩
  | pbytes bs =>
    injection h with hcs
    subst hcs
    exact ⟨'"', _, rfl, by simp⟩
  | pstr s =>
    injection h with hcs
    subst hcs
    exact ⟨'"', _, rfl, by simp⟩
  | puuid u =>
    injection h with hcs
    subst hcs
    exact ⟨'"', _, rfl, by simp⟩
  | plist xs =>
    rcases Option.map_eq_some'.mp h with ⟨body, _, rfl⟩
    exact ⟨'[', _, rfl, by simp⟩
  | pdict kvs =>
    rcases Option.map_eq_some'.mp h with ⟨body, _, rfl⟩
    exact ⟨'\x7b', _, rfl, by simp⟩

theorem jsonParse_null (fuel : Nat) (extra : List Char) :
    jsonParse (fuel+1) (['n', 'u', 'l', 'l'] ++ extra) =
      some (.pnone, extra) := rfl

theorem jsonParse_true (fuel : Nat) (extra : List Char) :
    jsonParse (fuel+1) (['t', 'r', 'u', 'e'] ++ extra) =
      some (.pbool true, extra) := rfl

theorem jsonParse_false (fuel : Nat) (extra : List Char) :
    jsonParse (fuel+1) (['f', 'a', 'l', 's', 'e'] ++ extra) =
      some (.pbool false, extra) := rfl

theorem jsonParse_str (s : String) (fuel : Nat) (extra : List Char) :
    jsonParse (fuel+1) (jsonQuote s ++ extra) = some (.pstr s, extra) := by
  unfold jsonQuote
  simp only [List.cons_append, List.append_assoc, List.nil_append]
  conv_lhs => unfold jsonParse
  rw [skipWs_cons _ _ (by decide)]
  dsimp only
  rw [if_neg (by decide), if_neg (by decide), if_neg (by decide),
    if_pos rfl]
  rw [parseJString_escape s.data _ (by
    rw [List.length_append]
    omega) extra]
  rfl

theorem jsonParse_num (n : Int) (fuel : Nat) (extra : List Char)
    (hstop : jsonStop extra) :
    jsonParse (fuel+1) (intToChars n ++ extra) = some (.pint n, extra) := by
  rcases intToChars_head n with ⟨c, cs2, hhead, hc⟩
  have hnum : c.toNat = 45 ∨ (48 ≤ c.toNat ∧ c.toNat ≤ 57) := by
    rcases hc with h1 | h1
    · subst h1
      left
      rfl
    · unfold isDigitChar at h1
      simp only [Bool.and_eq_true, decide_eq_true_eq] at h1
      omega
  rw [hhead, List.cons_append]
  conv_lhs => unfold jsonParse
  rw [skipWs_cons _ _ (by
    intro hor
    rcases hor with h | h | h | h <;> (subst h; exact absurd hnum (by decide)))]
  dsimp only
  rw [if_neg (by intro he; subst he; exact absurd hnum (by decide))]
  rw [if_neg (by intro he; subst he; exact absurd hnum (by decide))]
  rw [if_neg (by intro he; subst he; exact absurd hnum (by decide))]
  rw [if_neg (by intro he; subst he; exact absurd hnum (by decide))]
  rw [if_neg (by intro he; subst he; exact absurd hnum (by decide))]
  rw [if_neg (by intro he; subst he; exact absurd hnum (by decide))]
  rw [← List.cons_append, ← hhead]
  exact jsonParseNumber_int n extra hstop

theorem jsonParse_float (bits : Nat) (fuel : Nat) (extra : List Char)
    (hstop : jsonStop extra) :
    jsonParse (fuel+1) (floatRepr bits ++ extra) =
      some (.pfloat bits, extra) := by
  rcases floatRepr_head bits with ⟨c, cs2, hhead, hc⟩
  rw [hhead, List.cons_append]
  conv_lhs => unfold jsonParse
  rw [skipWs_cons _ _ (by
    intro hor
    rcases hor with h | h | h | h <;> (subst h; exact absurd hc (by decide)))]
  dsimp only
  rw [if_neg (by intro he; subst he; exact absurd hc (by decide))]
  rw [if_neg (by intro he; subst he; exact absurd hc (by decide))]
  rw [if_neg (by intro he; subst he; exact absurd hc (by decide))]
  rw [if_neg (by intro he; subst he; exact absurd hc (by decide))]
  rw [if_neg (by intro he; subst he; exact absurd hc (by decide))]
  rw [if_neg (by intro he; subst he; exact absurd hc (by decide))]
  rw [← List.cons_append, ← hhead]
  exact jsonParseNumber_float bits extra hstop

theorem dumpHead_nonws (c : Char)
    (h : c = '\x7b' ∨ c = '[' ∨ c = '"' ∨ c = 't' ∨ c = 'f' ∨ c = 'n' ∨
      c = '-' ∨ isDigitChar c = true) :
    ¬ (c = ' ' ∨ c = '\t' ∨ c = '\n' ∨ c = '\r') := by
  intro hw
  rcases hw with w | w | w | w <;> subst w <;>
    rcases h with h | h | h | h | h | h | h | h <;> exact absurd h (by decide)

theorem dumpHead_ne (c : Char)
    (h : c = '\x7b' ∨ c = '[' ∨ c = '"' ∨ c = 't' ∨ c = 'f' ∨ c = 'n' ∨
      c = '-' ∨ isDigitChar c = true) :
    ¬ c = ']' ∧ ¬ c = '\x7d' ∧ ¬ c = ',' ∧ ¬ c = ':' := by
  refine ⟨?_, ?_, ?_, ?_⟩ <;>
    (intro he; subst he;
     rcases h with h | h | h | h | h | h | h | h <;> exact absurd h (by decide))

theorem jsonStop_nil : jsonStop [] := trivial

theorem jsonStop_comma (r : List Char) : jsonStop (',' :: r) := Or.inl rfl

theorem jsonStop_rbracket (r : List Char) : jsonStop (']' :: r) :=
  Or.inr (Or.inl rfl)

theorem jsonStop_rbrace (r : List Char) : jsonStop ('\x7d' :: r) :=
  Or.inr (Or.inr rfl)

mutual

theorem jsonParse_dump (v : PyObj) (cs : List Char)
    (h : jsonDumpChars v = some cs) (fuel : Nat) (hf : jsonFuelV v ≤ fuel)
    (extra : List Char) (hstop : jsonStop extra) :
    jsonParse fuel (cs ++ extra) = some (jsonImage v, extra) := by
  obtain ⟨f, rfl⟩ : ∃ f, fuel = f + 1 :=
    ⟨fuel - 1, by have := jsonFuelV_pos v; omega⟩
  cases v with
  | pnone =>
    injection h with hcs
    subst hcs
    exact jsonParse_null f extra
  | pbool b =>
    cases b with
    | true =>
      injection h with hcs
      subst hcs
      exact jsonParse_true f extra
    | false =>
      injection h with hcs
      subst hcs
      exact jsonParse_false f extra
  | pint n =>
    injection h with hcs
    subst hcs
    exact jsonParse_num n f extra hstop
  | pfloat fl =>
    injection h with hcs
    subst hcs
    exact jsonParse_float fl f extra hstop
  | pbytes bs =>
    injection h with hcs
    subst hcs
    exact jsonParse_str (base64Str bs) f extra
  | pstr s =>
    injection h with hcs
    subst hcs
    exact jsonParse_str s f extra
  | puuid u =>
    injection h with hcs
    subst hcs
    exact jsonParse_str u f extra
  | plist xs =>
    rcases Option.map_eq_some'.mp h with ⟨body, hbody, rfl⟩
    simp only [List.cons_append, List.append_assoc, List.nil_append]
    conv_lhs => unfold jsonParse
    rw [skipWs_cons _ _ (by decide)]
    dsimp only
    rw [if_neg (by decide), if_neg (by decide), if_neg (by decide),
      if_neg (by decide), if_pos rfl]
    cases xs with
    | nil =>
      injection hbody with hb
      subst hb
      rw [List.nil_append, skipWs_cons _ _ (by decide)]
      split
      · rename_i r heq
        injection heq with e1 e2
        subst e2
        rfl
      · rename_i hne
        exact absurd rfl (hne extra)
    | cons x rest =>
      rcases Option.bind_eq_some.mp hbody with ⟨cx, hcx, hm⟩
      rcases Option.map_eq_some'.mp hm with ⟨rbody, hrbody, rfl⟩
      rcases jsonDump_head x cx hcx with ⟨hc0, hcs0, hcxe, hdisj⟩
      have hitems := jsonParseItems_dump (x :: rest) _ hbody
        (List.cons_ne_nil x rest) f (by
          simp only [jsonFuelV] at hf
          omega) extra
      subst hcxe
      simp only [List.cons_append, List.append_assoc] at hitems ⊢
      rw [skipWs_cons _ _ (dumpHead_nonws hc0 hdisj)]
      split
      · rename_i r heq
        injection heq with e1 e2
        exact absurd e1 (dumpHead_ne hc0 hdisj).1
      · rw [hitems]
        rfl
  | pdict kvs =>
    rcases Option.map_eq_some'.mp h with ⟨body, hbody, rfl⟩
    simp only [List.cons_append, List.append_assoc, List.nil_append]
    conv_lhs => unfold jsonParse
    rw [skipWs_cons _ _ (by decide)]
    dsimp only
    rw [if_neg (by decide), if_neg (by decide), if_neg (by decide),
      if_neg (by decide), if_neg (by decide), if_pos rfl]
    cases kvs with
    | nil =>
      injection hbody with hb
      subst hb
      rw [List.nil_append, skipWs_cons _ _ (by decide)]
      split
      · rename_i r heq
        injection heq with e1 e2
        subst e2
        rfl
      · rename_i hne
        exact absurd rfl (hne extra)
    | cons kv rest =>
      obtain ⟨k1, v2⟩ := kv
      cases k1 with
      | pstr k =>
        rcases Option.bind_eq_some.mp hbody with ⟨cv, hcv, hm⟩
        rcases Option.map_eq_some'.mp hm with ⟨crest, hcrest, rfl⟩
        have hentries := jsonParseEntries_dump ((.pstr k, v2) :: rest) _
          hbody (List.cons_ne_nil _ rest) f (by
            simp only [jsonFuelV] at hf
            omega) extra
        simp only [jsonQuote, List.cons_append, List.append_assoc,
          List.nil_append] at hentries ⊢
        rw [skipWs_cons _ _ (by decide)]
        split
        · rename_i r heq
          injection heq with e1 e2
          exact absurd e1 (by decide)
        · rw [hentries]
          rfl
      | pnone => exact Option.noConfusion hbody
      | pbool b => exact Option.noConfusion hbody
      | pint n => exact Option.noConfusion hbody
      | pfloat fl => exact Option.noConfusion hbody
      | pbytes bs => exact Option.noConfusion hbody
      | puuid u => exact Option.noConfusion hbody
      | plist l => exact Option.noConfusion hbody
      | pdict d => exact Option.noConfusion hbody

theorem jsonParseItems_dump (xs : List PyObj) (cs : List Char)
    (h : jsonDumpList xs = some cs) (hne : xs ≠ []) (fuel : Nat)
    (hf : jsonFuelL xs ≤ fuel) (extra : List Char) :
    jsonParseItems fuel (cs ++ (']' :: extra)) =
      some (jsonImageList xs, extra) := by
  cases xs with
  | nil => exact absurd rfl hne
  | cons x rest =>
    rcases Option.bind_eq_some.mp h with ⟨cx, hcx, hm⟩
    rcases Option.map_eq_some'.mp hm with ⟨rbody, hrbody, rfl⟩
    obtain ⟨f, rfl⟩ : ∃ f, fuel = f + 1 :=
      ⟨fuel - 1, by simp only [jsonFuelL] at hf; omega⟩
    have hfx : jsonFuelV x ≤ f := by simp only [jsonFuelL] at hf; omega
    conv_lhs => unfold jsonParseItems
    cases rest with
    | nil =>
      simp only [List.isEmpty_nil, if_true, List.append_nil]
      rw [jsonParse_dump x cx hcx f hfx (']' :: extra)
        (jsonStop_rbracket extra)]
      rw [Option.some_bind]
      rw [skipWs_cons _ _ (by decide)]
      split
      · rename_i r heq
        injection heq with e1 e2
        exact absurd e1 (by decide)
      · rename_i r heq
        injection heq with e1 e2
        subst e2
        rfl
      · rename_i hne2 hne3
        exact absurd rfl (hne3 extra)
    | cons x2 rest2 =>
      simp only [List.isEmpty_cons, Bool.false_eq_true, if_false]
      simp only [List.cons_append, List.append_assoc]
      rw [jsonParse_dump x cx hcx f hfx _ (jsonStop_comma _)]
      rw [Option.some_bind]
      rw [skipWs_cons _ _ (by decide)]
      split
      · rename_i r heq
        injection heq with e1 e2
        subst e2
        rw [jsonParseItems_dump (x2 :: rest2) rbody hrbody
          (List.cons_ne_nil x2 rest2) f (by
            simp only [jsonFuelL] at hf ⊢
            omega) extra]
        rfl
      · rename_i r heq
        injection heq with e1 e2
        exact absurd e1 (by decide)
      · rename_i hne2 hne3
        exact absurd rfl (hne2 _)

theorem jsonParseEntries_dump (kvs : List (PyObj × PyObj)) (cs : List Char)
    (h : jsonDumpEntries kvs = some cs) (hne : kvs ≠ []) (fuel : Nat)
    (hf : jsonFuelE kvs ≤ fuel) (extra : List Char) :
    jsonParseEntries fuel (cs ++ ('\x7d' :: extra)) =
      some (jsonImageEntries kvs, extra) := by
  cases kvs with
  | nil => exact absurd rfl hne
  | cons kv rest =>
    obtain ⟨k1, v2⟩ := kv
    cases k1 with
    | pstr k =>
      rcases Option.bind_eq_some.mp h with ⟨cv, hcv, hm⟩
      rcases Option.map_eq_some'.mp hm with ⟨crest, hcrest, rfl⟩
      obtain ⟨f, rfl⟩ : ∃ f, fuel = f + 1 :=
        ⟨fuel - 1, by simp only [jsonFuelE] at hf; omega⟩
      have hfv : jsonFuelV v2 ≤ f := by simp only [jsonFuelE] at hf; omega
      conv_lhs => unfold jsonParseEntries
      unfold jsonQuote
      simp only [List.cons_append, List.append_assoc, List.nil_append]
      rw [skipWs_cons _ _ (by decide)]
      split
      · rename_i rest1 heq
        injection heq with e1 e2
        subst e2
        rw [parseJString_escape k.data _ (by
          simp only [List.length_append]
          omega) _]
        rw [Option.some_bind]
        rw [skipWs_cons _ _ (by decide)]
        split
        · rename_i r heq2
          injection heq2 with e3 e4
          subst e4
          cases rest with
          | nil =>
            simp only [List.isEmpty_nil, if_true, List.append_nil,
              List.nil_append]
            rw [jsonParse_dump v2 cv hcv f hfv ('\x7d' :: extra)
              (jsonStop_rbrace extra)]
            rw [Option.some_bind]
            rw [skipWs_cons _ _ (by decide)]
            split
            · rename_i r2 heq3
              injection heq3 with e5 e6
              exact absurd e5 (by decide)
            · rename_i r2 heq3
              injection heq3 with e5 e6
              subst e6
              rfl
            · rename_i hne2 hne3
              exact absurd rfl (hne3 extra)
          | cons kv2 rest2 =>
            simp only [List.isEmpty_cons, Bool.false_eq_true, if_false]
            simp only [List.cons_append, List.append_assoc]
            rw [jsonParse_dump v2 cv hcv f hfv _ (jsonStop_comma _)]
            rw [Option.some_bind]
            rw [skipWs_cons _ _ (by decide)]
            split
            · rename_i r2 heq3
              injection heq3 with e5 e6
              subst e6
              rw [jsonParseEntries_dump (kv2 :: rest2) crest hcrest
                (List.cons_ne_nil kv2 rest2) f (by
                  simp only [jsonFuelE] at hf ⊢
                  omega) extra]
              rfl
            · rename_i r2 heq3
              injection heq3 with e5 e6
              exact absurd e5 (by decide)
            · rename_i hne2 hne3
              exact absurd rfl (hne2 _)
        · rename_i hne2
          exact absurd rfl (hne2 _)
      · rename_i hne2
        exact absurd rfl (hne2 _)
    | pnone => exact Option.noConfusion h
    | pbool b => exact Option.noConfusion h
    | pint n => exact Option.noConfusion h
    | pfloat fl => exact Option.noConfusion h
    | pbytes bs => exact Option.noConfusion h
    | puuid u => exact Option.noConfusion h
    | plist l => exact Option.noConfusion h
    | pdict d => exact Option.noConfusion h

end

theorem jsonQuote_length (s : String) :
    (jsonQuote s).length = (s.data.flatMap jsonEscapeChar).length + 2 := by
  unfold jsonQuote
  simp

mutual

theorem jsonFuelV_le (v : PyObj) (cs : List Char)
    (h : jsonDumpChars v = some cs) : jsonFuelV v + 1 ≤ 2 * cs.length := by
  cases v with
  | pnone =>
    injection h with hcs
    subst hcs
    decide
  | pbool b =>
    cases b with
    | true =>
      injection h with hcs
      subst hcs
      decide
    | false =>
      injection h with hcs
      subst hcs
      decide
  | pint n =>
    injection h with hcs
    subst hcs
    rcases intToChars_head n with ⟨c, cs2, he, _⟩
    rw [he]
    simp [jsonFuelV]
  | pfloat fl =>
    injection h with hcs
    subst hcs
    rcases floatRepr_head fl with ⟨c, cs2, he, _⟩
    rw [he]
    simp [jsonFuelV]
  | pbytes bs =>
    injection h with hcs
    subst hcs
    rw [jsonQuote_length]
    simp [jsonFuelV]
  | pstr s =>
    injection h with hcs
    subst hcs
    rw [jsonQuote_length]
    simp [jsonFuelV]
  | puuid u =>
    injection h with hcs
    subst hcs
    rw [jsonQuote_length]
    simp [jsonFuelV]
  | plist xs =>
    rcases Option.map_eq_some'.mp h with ⟨body, hbody, rfl⟩
    have hb := jsonFuelL_le xs body hbody
    simp only [jsonFuelV, List.length_append, List.cons_append,
      List.length_cons]
    simp
    omega
  | pdict kvs =>
    rcases Option.map_eq_some'.mp h with ⟨body, hbody, rfl⟩
    have hb := jsonFuelE_le kvs body hbody
    simp only [jsonFuelV, List.length_append, List.cons_append,
      List.length_cons]
    simp
    omega

theorem jsonFuelL_le (xs : List PyObj) (cs : List Char)
    (h : jsonDumpList xs = some cs) : jsonFuelL xs ≤ 2 * cs.length := by
  cases xs with
  | nil =>
    injection h with hcs
    subst hcs
    simp [jsonFuelL]
  | cons x rest =>
    rcases Option.bind_eq_some.mp h with ⟨cx, hcx, hm⟩
    rcases Option.map_eq_some'.mp hm with ⟨rbody, hrbody, rfl⟩
    have hx := jsonFuelV_le x cx hcx
    have hr := jsonFuelL_le rest rbody hrbody
    cases rest with
    | nil =>
      simp only [List.isEmpty_nil, if_true, List.append_nil]
      simp only [jsonFuelL]
      omega
    | cons x2 rest2 =>
      simp only [List.isEmpty_cons, Bool.false_eq_true, if_false]
      simp only [jsonFuelL] at hr ⊢
      simp only [List.length_append, List.length_cons]
      omega

theorem jsonFuelE_le (kvs : List (PyObj × PyObj)) (cs : List Char)
    (h : jsonDumpEntries kvs = some cs) : jsonFuelE kvs ≤ 2 * cs.length := by
  cases kvs with
  | nil =>
    injection h with hcs
    subst hcs
    simp [jsonFuelE]
  | cons kv rest =>
    obtain ⟨k1, v2⟩ := kv
    cases k1 with
    | pstr k =>
      rcases Option.bind_eq_some.mp h with ⟨cv, hcv, hm⟩
      rcases Option.map_eq_some'.mp hm with ⟨crest, hcrest, rfl⟩
      have hv := jsonFuelV_le v2 cv hcv
      have hr := jsonFuelE_le rest crest hcrest
      cases rest with
      | nil =>
        simp only [List.isEmpty_nil, if_true, List.append_nil]
        simp only [jsonFuelE]
        simp only [List.length_append, List.length_cons]
        omega
      | cons kv2 rest2 =>
        simp only [List.isEmpty_cons, Bool.false_eq_true, if_false]
        simp only [jsonFuelE] at hr ⊢
        simp only [List.length_append, List.length_cons]
        omega
    | pnone => exact Option.noConfusion h
    | pbool b => exact Option.noConfusion h
    | pint n => exact Option.noConfusion h
    | pfloat fl => exact Option.noConfusion h
    | pbytes bs => exact Option.noConfusion h
    | puuid u => exact Option.noConfusion h
    | plist l => exact Option.noConfusion h
    | pdict d => exact Option.noConfusion h

end

theorem jsonLoads_dumps (v : PyObj) (s : String)
    (h : jsonDumps v = some s) : jsonLoads s = some (jsonImage v) := by
  rcases Option.map_eq_some'.mp h with ⟨cs, hcs, rfl⟩
  unfold jsonLoads
  have hb := jsonFuelV_le v cs hcs
  have hp := jsonParse_dump v cs hcs (2 * cs.length + 2) (by omega) []
    jsonStop_nil
  rw [List.append_nil] at hp
  show (jsonParse (2 * cs.length + 2) cs).bind _ = _
  rw [hp]
  rfl

theorem utf8DecodeStrict_encode (s : String) :
    utf8DecodeStrict (utf8Encode s) = some s := by
  unfold utf8DecodeStrict
  rw [utf8_roundtrip]
  rw [if_pos rfl]

theorem json_roundtrip_bytes (v : PyObj) (ct : String) (bs : List Nat)
    (h : jsonToBytes v = some (ct, bs)) :
    jsonFromBytes bs = some (jsonImage v) := by
  unfold jsonToBytes at h
  rcases Option.map_eq_some'.mp h with ⟨s, hs, he⟩
  injection he with he1 he2
  subst he2
  unfold jsonFromBytes
  rw [utf8DecodeStrict_encode]
  rw [Option.some_bind]
  exact jsonLoads_dumps v s hs

theorem foldl_pyObjDictInsert_fresh (ps : List (String × PyObj)) :
    ∀ acc : List (String × PyObj),
      (∀ p ∈ ps, ∀ q ∈ acc, ¬ q.1 = p.1) → (ps.map Prod.fst).Nodup →
      ps.foldl (fun acc kv => pyObjDictInsert acc kv.1 kv.2) acc =
        acc ++ ps := by
  induction ps with
  | nil =>
    intro acc _ _
    simp
  | cons kv rest ih =>
    intro acc hfresh hnodup
    obtain ⟨k, v⟩ := kv
    rw [List.foldl_cons]
    have hins : pyObjDictInsert acc k v = acc ++ [(k, v)] := by
      unfold pyObjDictInsert
      rw [if_neg]
      intro hany
      rcases List.any_eq_true.mp hany with ⟨q, hq, hqk⟩
      exact hfresh (k, v) (List.mem_cons_self (k, v) rest) q hq
        (by simpa using hqk)
    rw [hins]
    rw [List.map_cons] at hnodup
    have hpair := List.nodup_cons.mp hnodup
    rw [ih (acc ++ [(k, v)]) ?fr hpair.2]
    · rw [List.append_assoc]
      rfl
    case fr =>
      intro p hp q hq
      rcases List.mem_append.mp hq with h1 | h2
      · exact hfresh p (List.mem_cons_of_mem (k, v) hp) q h1
      · have hqe : q = (k, v) := by simpa using h2
        subst hqe
        intro hkp
        exact hpair.1 (hkp ▸ List.mem_map.mpr ⟨p, hp, rfl⟩)

theorem pyObjDictOf_nodup (kvs : List (String × PyObj))
    (h : (kvs.map Prod.fst).Nodup) : pyObjDictOf kvs = kvs := by
  unfold pyObjDictOf
  rw [foldl_pyObjDictInsert_fresh kvs [] (by intro p hp q hq; cases hq) h]
  rfl

end MediaType

